import Mathlib

/-!
Verification of the graph-execution core of the SEA Vision image-pipeline
repository (`src/cpp/graph/…`).

The C++ sources are shallowly embedded:

* `std::string` node ids become `String` (ordered lexicographically, as
  `std::map` keys are);
* `std::map<K,V>` becomes an association list kept strictly sorted by key,
  with `operator[]`-style insertion; iteration order of the C++ map is the
  list order of the embedding;
* `std::vector` becomes `List`;
* `cv::Mat` is opaque to the engine: it is modelled by `Mat`, with
  `Mat.empty` playing the role of a default-constructed / failed-load image;
* functions that throw become `Except String`-valued functions;
* the external world (image files, the excluded operation registry) is an
  explicit `Env` record passed to the execution engine.
-/

/-- Node identifier (`using NodeId = std::string;` in `graph_node.hpp`). -/
abbrev NodeId := String

/-- Region of interest (`struct ROI`): rectangle plus the
`full_image` sentinel flag.  The engine core never interprets the numeric
fields; they are carried through to the (excluded) operations. -/
structure ROI where
  x : Int := 0
  y : Int := 0
  width : Int := 0
  height : Int := 0
  full_image : Bool := false
deriving DecidableEq, Repr

/-- Parameter map of a node (`std::map<std::string,double>`).  The engine
never reads the numeric payloads (they go straight to the excluded
operation collaborators), so the `double` payload is abstracted to `Int`;
floating-point values are out of scope of this embedding. -/
abbrev Params := List (String × Int)

/-- Opaque image value standing in for `cv::Mat`; `Mat.empty` is the
default-constructed empty matrix (`cv::Mat()`), which is also what
`cv::imread` returns on failure. -/
inductive Mat where
  | empty : Mat
  | img : Nat → Mat
deriving DecidableEq, Repr

/-- `GraphNode` (`graph_node.hpp`), with the closed variant set
(input / output / operation) flattened into one record: `image_path_` is the
field of `InputNode` / `OutputNode`, and for an `OperationNode` the wrapped
operation's type string is the node's `type_` (the `OperationNode`
constructor passes `operation_type` as the `GraphNode` type).

`name_` backs `getName`.  Modelled from the spec: `GraphNode::getName` is
called by the executor for the progress callback's "node display name" but
its declaration is not among the sources provided; it is modelled as a
stored display-name string returned unchanged. -/
structure GraphNode where
  id_ : NodeId
  type_ : String
  name_ : String
  parameters_ : Params := []
  input_node_ids_ : List NodeId := []
  output_node_ids_ : List NodeId := []
  roi_ : ROI := {}
  executed_ : Bool := false
  result_ : Mat := Mat.empty
  image_path_ : String := ""
deriving DecidableEq, Repr

namespace GraphNode

/-- `GraphNode::getId`. -/
def getId (n : GraphNode) : NodeId := n.id_

/-- `GraphNode::getType`. -/
def getType (n : GraphNode) : String := n.type_

/-- `GraphNode::getName` (modelled from the spec: the node's display name). -/
def getName (n : GraphNode) : String := n.name_

/-- `GraphNode::hasInput`: `std::find` over the input id list. -/
def hasInput (n : GraphNode) (input_node_id : NodeId) : Bool :=
  n.input_node_ids_.contains input_node_id

/-- `GraphNode::hasOutput`. -/
def hasOutput (n : GraphNode) (output_node_id : NodeId) : Bool :=
  n.output_node_ids_.contains output_node_id

/-- `GraphNode::addInput`: append unless already connected. -/
def addInput (n : GraphNode) (input_node_id : NodeId) : GraphNode :=
  if n.hasInput input_node_id then n
  else { n with input_node_ids_ := n.input_node_ids_ ++ [input_node_id] }

/-- `GraphNode::addOutput`: append unless already connected. -/
def addOutput (n : GraphNode) (output_node_id : NodeId) : GraphNode :=
  if n.hasOutput output_node_id then n
  else { n with output_node_ids_ := n.output_node_ids_ ++ [output_node_id] }

/-- `GraphNode::removeInput`: erase the first matching entry, report whether
one existed. -/
def removeInput (n : GraphNode) (input_node_id : NodeId) : GraphNode × Bool :=
  if n.hasInput input_node_id then
    ({ n with input_node_ids_ := n.input_node_ids_.erase input_node_id }, true)
  else (n, false)

/-- `GraphNode::removeOutput`. -/
def removeOutput (n : GraphNode) (output_node_id : NodeId) : GraphNode × Bool :=
  if n.hasOutput output_node_id then
    ({ n with output_node_ids_ := n.output_node_ids_.erase output_node_id }, true)
  else (n, false)

/-- `GraphNode::resetExecution`. -/
def resetExecution (n : GraphNode) : GraphNode :=
  { n with executed_ := false, result_ := Mat.empty }

end GraphNode

/-- Directed edge record (`struct Connection` in `graph.hpp`). -/
structure Connection where
  from_node : NodeId
  from_port : Int
  to_node : NodeId
  to_port : Int
deriving DecidableEq, Repr

/-- One batch of a topological sort (`using ExecutionLevel = std::vector<NodeId>`). -/
abbrev ExecutionLevel := List NodeId

/-- `using ExecutionLevels = std::vector<ExecutionLevel>`. -/
abbrev ExecutionLevels := List ExecutionLevel

/-- The `operator<` of `std::string` keys (lexicographic), phrased through
the character lists so that the kernel evaluates it on literals:
`String.lt` is by definition exactly this order on `String.data`. -/
def strLt (a b : String) : Bool := decide (a.data < b.data)

lemma strLt_iff (a b : String) : strLt a b = true ↔ a < b := by
  unfold strLt
  rw [String.lt_iff_toList_lt]
  exact @decide_eq_true_iff (a.data < b.data) _

/-- Insertion into the id-sorted node list, mirroring
`nodes_[node->getId()] = std::move(node)` on `std::map<NodeId,NodePtr>`:
replace the entry with the same key, otherwise insert at the key's sorted
position. -/
def nmInsert (n : GraphNode) : List GraphNode → List GraphNode
  | [] => [n]
  | m :: ms =>
    if strLt n.id_ m.id_ then n :: m :: ms
    else if n.id_ = m.id_ then n :: ms
    else m :: nmInsert n ms

/-- Remove the entry with the given key (`nodes_.erase(it)`). -/
def nmErase (node_id : NodeId) : List GraphNode → List GraphNode
  | [] => []
  | m :: ms => if m.id_ = node_id then ms else m :: nmErase node_id ms

/-- Apply `f` to the node with the given key, if present; models an
in-place mutation through the pointer returned by `Graph::getNode`. -/
def nmUpdate (node_id : NodeId) (f : GraphNode → GraphNode) :
    List GraphNode → List GraphNode
  | [] => []
  | m :: ms => if m.id_ = node_id then f m :: ms else m :: nmUpdate node_id f ms

/-- The sorted `std::map<NodeId,int>` used for in-degrees in
`Graph::topologicalSort`. -/
abbrev DegMap := List (NodeId × Int)

/-- `in_degree[k] = v` (default-insert then assign). -/
def degSet (k : NodeId) (v : Int) : DegMap → DegMap
  | [] => [(k, v)]
  | e :: es =>
    if strLt k e.1 then (k, v) :: e :: es
    else if k = e.1 then (k, v) :: es
    else e :: degSet k v es

/-- `in_degree[k] += d` (`operator[]` default-inserts `0` first). -/
def degAdd (k : NodeId) (d : Int) : DegMap → DegMap
  | [] => [(k, d)]
  | e :: es =>
    if strLt k e.1 then (k, d) :: e :: es
    else if k = e.1 then (k, e.2 + d) :: es
    else e :: degAdd k d es

/-- Read `in_degree[k]` without inserting (used only after the key is known
to be present). -/
def degGet (m : DegMap) (k : NodeId) : Int :=
  match m.find? (fun e => e.1 = k) with
  | some e => e.2
  | none => 0

/-- The graph container (`class Graph`).  `nodes_` is the id-sorted node
map; the remaining fields are verbatim. -/
structure Graph where
  nodes_ : List GraphNode := []
  connections_ : List Connection := []
  input_node_id_ : NodeId := ""
  output_node_id_ : NodeId := ""
  execution_levels_ : ExecutionLevels := []
deriving DecidableEq, Repr

namespace Graph

/-- `Graph::getNode`. -/
def getNode (g : Graph) (node_id : NodeId) : Option GraphNode :=
  g.nodes_.find? (fun n => n.id_ = node_id)

/-- `Graph::hasNode`. -/
def hasNode (g : Graph) (node_id : NodeId) : Bool :=
  (g.getNode node_id).isSome

/-- `Graph::getAllNodeIds` (map iteration order). -/
def getAllNodeIds (g : Graph) : List NodeId :=
  g.nodes_.map GraphNode.id_

/-- `Graph::getNodesByType` (map iteration order). -/
def getNodesByType (g : Graph) (type : String) : List NodeId :=
  (g.nodes_.filter (fun n => n.type_ = type)).map GraphNode.id_

/-- `Graph::getNodeCount`. -/
def getNodeCount (g : Graph) : Nat := g.nodes_.length

/-- `Graph::isEmpty`. -/
def isEmpty (g : Graph) : Bool := g.nodes_.isEmpty

/-- `Graph::getIncomingConnections`: linear scan of `connections_`. -/
def getIncomingConnections (g : Graph) (node_id : NodeId) : List Connection :=
  g.connections_.filter (fun c => c.to_node = node_id)

/-- `Graph::getOutgoingConnections`. -/
def getOutgoingConnections (g : Graph) (node_id : NodeId) : List Connection :=
  g.connections_.filter (fun c => c.from_node = node_id)

/-- One popped node's turn inside a level of `Graph::topologicalSort`:
decrement each successor's in-degree and push those that reach zero. -/
def kahnVisit (g : Graph) (st : DegMap × List NodeId) (current : NodeId) :
    DegMap × List NodeId :=
  match g.getNode current with
  | none => st
  | some n =>
    n.output_node_ids_.foldl
      (fun (st : DegMap × List NodeId) o =>
        let deg' := degAdd o (-1) st.1
        if degGet deg' o = 0 then (deg', st.2 ++ [o]) else (deg', st.2))
      st

/-- The `while (!queue.empty())` loop of `Graph::topologicalSort`: each
round drains the whole current queue as one level; ids pushed during the
round form the next round's queue.  `fuel` only bounds the number of
rounds; every id is pushed at most once, so the fuel passed by
`topologicalSort` is never exhausted. -/
def kahnRounds (g : Graph) : Nat → DegMap → List NodeId → ExecutionLevels
  | 0, _, _ => []
  | fuel + 1, deg, queue =>
    if queue.isEmpty then []
    else
      let st := queue.foldl (kahnVisit g) (deg, [])
      queue :: kahnRounds g fuel st.1 st.2

/-- `Graph::topologicalSort` (Kahn's algorithm): in-degrees from the nodes'
output lists (the `std::map` default-inserts ids that are not nodes), seed
with the zero-in-degree keys in key order, drain by levels, and signal a
cycle by returning the empty level set when the emitted count differs from
the node count. -/
def topologicalSort (g : Graph) : ExecutionLevels :=
  let deg0 : DegMap := g.nodes_.foldl (fun m n => degSet n.id_ 0 m) []
  let deg1 : DegMap := g.nodes_.foldl
    (fun m n => n.output_node_ids_.foldl (fun m' o => degAdd o 1 m') m) deg0
  let queue0 : List NodeId := (deg1.filter (fun e => e.2 = 0)).map Prod.fst
  let levels := kahnRounds g (deg1.length + 1) deg1 queue0
  let processed := (levels.map List.length).sum
  if processed = g.nodes_.length then levels else []

/-- `Graph::updateExecutionLevels`. -/
def updateExecutionLevels (g : Graph) : Graph :=
  { g with execution_levels_ := g.topologicalSort }

/-- `Graph::addNode` (the embedded node is always a valid value, matching
the non-null branch of the C++). -/
def addNode (g : Graph) (node : GraphNode) : Graph :=
  updateExecutionLevels { g with nodes_ := nmInsert node g.nodes_ }

/-- `Graph::removeNode`: detach the node from its neighbors' lists (the
C++ raw pointer observes the first loop's mutations, hence the re-fetch
before the second loop), erase it, recompute levels. -/
def removeNode (g : Graph) (node_id : NodeId) : Graph × Bool :=
  match g.getNode node_id with
  | none => (g, false)
  | some node =>
    let g1 := node.input_node_ids_.foldl
      (fun acc input_id =>
        if (acc.getNode input_id).isSome then
          { acc with nodes_ :=
              nmUpdate input_id (fun m => (m.removeOutput node_id).1) acc.nodes_ }
        else acc) g
    let node' := (g1.getNode node_id).getD node
    let g2 := node'.output_node_ids_.foldl
      (fun acc output_id =>
        if (acc.getNode output_id).isSome then
          { acc with nodes_ :=
              nmUpdate output_id (fun m => (m.removeInput node_id).1) acc.nodes_ }
        else acc) g1
    (updateExecutionLevels { g2 with nodes_ := nmErase node_id g2.nodes_ }, true)

/-- `Graph::connectNodes`: update the two endpoints' id lists (only) when
both exist, then recompute levels; otherwise do nothing at all. -/
def connectNodes (g : Graph) (from_node_id to_node_id : NodeId) : Graph :=
  if (g.getNode from_node_id).isSome && (g.getNode to_node_id).isSome then
    let g1 := { g with nodes_ := nmUpdate from_node_id (fun n => n.addOutput to_node_id) g.nodes_ }
    let g2 := { g1 with nodes_ := nmUpdate to_node_id (fun n => n.addInput from_node_id) g1.nodes_ }
    updateExecutionLevels g2
  else g

/-- `Graph::disconnectNodes`. -/
def disconnectNodes (g : Graph) (from_node_id to_node_id : NodeId) : Graph :=
  if (g.getNode from_node_id).isSome && (g.getNode to_node_id).isSome then
    let g1 := { g with nodes_ := nmUpdate from_node_id (fun n => (n.removeOutput to_node_id).1) g.nodes_ }
    let g2 := { g1 with nodes_ := nmUpdate to_node_id (fun n => (n.removeInput from_node_id).1) g1.nodes_ }
    updateExecutionLevels g2
  else g

/-- `Graph::addConnection`: the connection record is appended
unconditionally; the endpoints' id lists are updated only when both nodes
exist; levels are recomputed unconditionally. -/
def addConnection (g : Graph) (from_node : NodeId) (from_port : Int)
    (to_node : NodeId) (to_port : Int) : Graph :=
  let g0 := { g with connections_ :=
    g.connections_ ++ [⟨from_node, from_port, to_node, to_port⟩] }
  let g1 :=
    if (g0.getNode from_node).isSome && (g0.getNode to_node).isSome then
      let ga := { g0 with nodes_ := nmUpdate from_node (fun n => n.addOutput to_node) g0.nodes_ }
      { ga with nodes_ := nmUpdate to_node (fun n => n.addInput from_node) ga.nodes_ }
    else g0
  updateExecutionLevels g1

/-- `Graph::getTopologicalOrder`: concatenate the levels. -/
def getTopologicalOrder (g : Graph) : List NodeId :=
  g.topologicalSort.flatten

/-- `Graph::clear`. -/
def clear (_g : Graph) : Graph := {}

end Graph

namespace Graph

/-- The `for` loop over `node->getOutputNodeIds()` in
`Graph::hasCyclesDFS`, abstracted over the recursive call: recurse into
unvisited successors, report a cycle on a back edge into the recursion
stack, otherwise continue. -/
def hasCyclesDFSOutsGo
    (dfs : NodeId → List NodeId → List NodeId →
      Option (Bool × List NodeId × List NodeId)) :
    List NodeId → List NodeId → List NodeId →
      Option (Bool × List NodeId × List NodeId)
  | [], visited, stack => some (false, visited, stack)
  | o :: rest, visited, stack =>
    if o ∈ visited then
      if o ∈ stack then some (true, visited, stack)
      else hasCyclesDFSOutsGo dfs rest visited stack
    else
      match dfs o visited stack with
      | none => none
      | some (true, v, s) => some (true, v, s)
      | some (false, v, s) => hasCyclesDFSOutsGo dfs rest v s

/-- One unfolding of `Graph::hasCyclesDFS`: mark the node visited and on
the recursion stack, scan its outputs, then pop it from the stack.
Returns `(cycle_found, visited, recursion_stack)`. -/
def hasCyclesDFSStep (g : Graph)
    (dfs : NodeId → List NodeId → List NodeId →
      Option (Bool × List NodeId × List NodeId))
    (node_id : NodeId) (visited recursion_stack : List NodeId) :
    Option (Bool × List NodeId × List NodeId) :=
  let visited' := node_id :: visited
  let stack' := node_id :: recursion_stack
  let outs := match g.getNode node_id with
    | some n => n.output_node_ids_
    | none => []
  match hasCyclesDFSOutsGo dfs outs visited' stack' with
  | none => none
  | some (true, v, s) => some (true, v, s)
  | some (false, v, s) => some (false, v, s.erase node_id)

/-- `Graph::hasCyclesDFS`, fuelled: `none` only on fuel exhaustion, which
the fuel chosen by `hasCycles` makes unreachable. -/
def hasCyclesDFS (g : Graph) :
    Nat → NodeId → List NodeId → List NodeId →
      Option (Bool × List NodeId × List NodeId)
  | 0 => fun _ _ _ => none
  | fuel + 1 => hasCyclesDFSStep g (hasCyclesDFS g fuel)

/-- The scan of a node's remaining output list at a given fuel. -/
def hasCyclesDFSOuts (g : Graph) (fuel : Nat) (outs : List NodeId)
    (visited stack : List NodeId) :
    Option (Bool × List NodeId × List NodeId) :=
  hasCyclesDFSOutsGo (hasCyclesDFS g fuel) outs visited stack

/-- The loop over all map entries in `Graph::hasCycles`, threading the one
`visited` / `recursion_stack` pair across the roots. -/
def hasCyclesRoots (g : Graph) (fuel : Nat) :
    List GraphNode → List NodeId → List NodeId → Option Bool
  | [], _, _ => some false
  | n :: rest, visited, stack =>
    if n.id_ ∈ visited then hasCyclesRoots g fuel rest visited stack
    else
      match hasCyclesDFS g fuel n.id_ visited stack with
      | none => none
      | some (true, _, _) => some true
      | some (false, v, s) => hasCyclesRoots g fuel rest v s

/-- Upper bound on the number of distinct ids the DFS can ever visit: the
node ids together with every id mentioned in an output list. -/
def idUniverse (g : Graph) : List NodeId :=
  (g.nodes_.map GraphNode.id_ ++
    g.nodes_.flatMap (fun n => n.output_node_ids_)).dedup

/-- `Graph::hasCycles`: DFS from every not-yet-visited map entry.  The
fuel covers one unit per distinct id ever visited; exhaustion is proved
unreachable (`hasCycles_ne_none` below), and the `getD` default is inert. -/
def hasCycles (g : Graph) : Bool :=
  (hasCyclesRoots g (g.idUniverse.length + 1) g.nodes_ [] []).getD false

/-- `Graph::validate`. -/
def validate (g : Graph) : Bool :=
  (g.input_node_id_ = "" || g.hasNode g.input_node_id_) &&
  ((g.output_node_id_ = "" || g.hasNode g.output_node_id_) &&
  (!g.hasCycles &&
  g.nodes_.all (fun n =>
    n.input_node_ids_.all g.hasNode && n.output_node_ids_.all g.hasNode)))

end Graph

/-- Sorted-association-list assignment for the `std::map<NodeId, cv::Mat>`
result cache (`node_results_[k] = v`). -/
def amSet (k : NodeId) (v : Mat) : List (NodeId × Mat) → List (NodeId × Mat)
  | [] => [(k, v)]
  | e :: es =>
    if strLt k e.1 then (k, v) :: e :: es
    else if k = e.1 then (k, v) :: es
    else e :: amSet k v es

/-- `node_results_.find(k)`. -/
def amLookup (m : List (NodeId × Mat)) (k : NodeId) : Option Mat :=
  match m.find? (fun e => e.1 = k) with
  | some e => some e.2
  | none => none

/-- The external world as seen by the engine: image files read by
`cv::imread` (`Mat.empty` = failed read), writes by `cv::imwrite`
(returning success), the excluded operation collaborators (`runOp`), and
the excluded operation registry (`knownOp` says whether
`OperationFactory::createOperation` can resolve a type string; modelled
from the spec/README, where the registry throws on an unknown type). -/
structure Env where
  imread : String → Mat
  imwrite : String → Mat → Bool
  runOp : String → Mat → ROI → Params → Except String Mat
  knownOp : String → Bool

/-- The virtual `GraphNode::execute` over the closed variant set:
`InputNode::execute` (load from file, fail on an empty read),
`OutputNode::execute` (exactly one input, write it out, pass it through),
`OperationNode::execute` (exactly one input, apply the wrapped operation).
The C++ call sites always pass the node's own ROI and parameters, which is
what this takes from `n` directly. -/
def nodeExecute (env : Env) (n : GraphNode) (inputs : List Mat) :
    Except String Mat :=
  if n.type_ = "input" then
    let image := env.imread n.image_path_
    if image = Mat.empty then
      .error ("could not load image from: " ++ n.image_path_)
    else .ok image
  else if n.type_ = "output" then
    match inputs with
    | [] => .error "output node requires exactly one input image"
    | [input] =>
      if env.imwrite n.image_path_ input then .ok input
      else .error ("could not save image to: " ++ n.image_path_)
    | _ => .error "output node can only handle one input image"
  else
    match inputs with
    | [] => .error "operation node requires exactly one input image"
    | [input] => env.runOp n.type_ input n.roi_ n.parameters_
    | _ => .error "operation node can only handle one input image (for now)"

/-- `GraphNodeFactory::createNode` (4-argument overload): "input" and
"output" make the corresponding variants; anything else is an operation
node whose constructor resolves the type in the operation registry and
throws when that fails.  The `parameters` argument is accepted and ignored,
exactly as in the factory source.  The display name is the node id
(modelled from the spec's "node display name"). -/
def createNode (env : Env) (node_id node_type : String) (_parameters : Params)
    (image_path : String) : Except String GraphNode :=
  if node_type = "input" then
    .ok { id_ := node_id, type_ := "input", name_ := node_id,
          image_path_ := image_path }
  else if node_type = "output" then
    .ok { id_ := node_id, type_ := "output", name_ := node_id,
          image_path_ := image_path }
  else if env.knownOp node_type then
    .ok { id_ := node_id, type_ := node_type, name_ := node_id }
  else .error ("Unknown operation type: " ++ node_type)

/-- `struct NodeConfig` (pipeline reader header). -/
structure NodeConfig where
  id : String
  type : String
  parameters : Params := []
  inputs : List String := []
  roi : ROI := {}
  image_path : String := ""
deriving DecidableEq, Repr

/-- A parsed `connections` array entry of the graph JSON form. -/
structure ConnectionConfig where
  from_node : String
  from_port : Int
  to_node : String
  to_port : Int
deriving DecidableEq, Repr

/-- `struct GraphConfig`. -/
structure GraphConfig where
  nodes : List NodeConfig := []
  connections : List ConnectionConfig := []
  input_node_id : String := ""
  output_node_id : String := ""
  input_image : String := ""
  output_image : String := ""
deriving DecidableEq, Repr

/-- `GraphExecutor::ExecutionStats` (the wall-clock `execution_time` field
is real time and outside this embedding). -/
structure ExecutionStats where
  total_nodes : Int := 0
  executed_nodes : Int := 0
deriving DecidableEq, Repr

/-- `class GraphExecutor` state. -/
structure GraphExecutor where
  graph_ : Graph := {}
  node_results_ : List (NodeId × Mat) := []
  stats_ : ExecutionStats := {}
deriving DecidableEq, Repr

namespace GraphExecutor

/-- `GraphExecutor::clearResults`. -/
def clearResults (ex : GraphExecutor) : GraphExecutor :=
  { ex with node_results_ := [],
            stats_ := { ex.stats_ with executed_nodes := 0 } }

/-- `GraphExecutor::getNodeInputs`: one image per incoming connection, in
connection-list order, from the result cache; missing upstream result is
the internal-consistency error. -/
def getNodeInputs (ex : GraphExecutor) (node_id : NodeId) :
    Except String (List Mat) :=
  (ex.graph_.getIncomingConnections node_id).mapM (fun c =>
    match amLookup ex.node_results_ c.from_node with
    | some m => Except.ok m
    | none => Except.error ("Source node not executed: " ++ c.from_node))

/-- `GraphExecutor::executeNode`. -/
def executeNode (env : Env) (ex : GraphExecutor) (node_id : NodeId) :
    Except String Mat :=
  match ex.graph_.getNode node_id with
  | none => .error ("Node not found: " ++ node_id)
  | some node => do
    let inputs ← ex.getNodeInputs node_id
    nodeExecute env node inputs

/-- `GraphExecutor::getResult`: empty sentinel on an empty cache; the first
output-typed node's cached result if any output node exists (empty sentinel
when it has no cached result); otherwise `node_results_.rbegin()`, i.e. the
entry with the greatest id in the sorted result map. -/
def getResult (ex : GraphExecutor) : Mat :=
  match ex.node_results_.getLast? with
  | none => Mat.empty
  | some lastEntry =>
    match ex.graph_.getNodesByType "output" with
    | [] => lastEntry.2
    | first_output :: _ =>
      match amLookup ex.node_results_ first_output with
      | some m => m
      | none => Mat.empty

end GraphExecutor

/-- One observable event of `GraphExecutor::executeWithProgress`: a
progress-callback invocation (display name, 1-based index, total count) or
the execution of one node producing its result. -/
inductive Ev where
  | prog (name : String) (current : Nat) (total : Nat)
  | run (node_id : NodeId) (result : Mat)
deriving DecidableEq, Repr

namespace GraphExecutor

/-- The `for` loop of `GraphExecutor::executeWithProgress` over the
topological order, instrumented with the event trace: the callback (when
non-null) fires before the node executes; each result is cached under the
node's id; a node failure aborts the loop. -/
def execLoop (env : Env) (hasCallback : Bool) (total : Nat) :
    List (Nat × NodeId) → GraphExecutor → List Ev →
    List Ev × GraphExecutor × Except String Unit
  | [], ex, evs => (evs, ex, .ok ())
  | (i, node_id) :: rest, ex, evs =>
    let evs1 :=
      if hasCallback then
        let node_name := match ex.graph_.getNode node_id with
          | some n => n.getName
          | none => "Unknown"
        evs ++ [Ev.prog node_name (i + 1) total]
      else evs
    match executeNode env ex node_id with
    | .error e => (evs1, ex, .error e)
    | .ok result =>
      let ex' := { ex with
        node_results_ := amSet node_id result ex.node_results_,
        stats_ := { ex.stats_ with
          executed_nodes := ex.stats_.executed_nodes + 1 } }
      execLoop env hasCallback total rest ex' (evs1 ++ [Ev.run node_id result])

/-- Result of a run: the event trace, the executor state afterwards (the
C++ object keeps the partial cache when a node throws), and the returned
image or the propagated error. -/
structure RunOutcome where
  events : List Ev
  exec : GraphExecutor
  ret : Except String Mat
deriving Repr

/-- `GraphExecutor::executeWithProgress`: clear the cache, take the
topological order, fail when it is empty, otherwise run the loop and
return `getResult()`. -/
def executeWithProgress (env : Env) (hasCallback : Bool)
    (ex : GraphExecutor) : RunOutcome :=
  let ex0 := ex.clearResults
  let execution_order := ex0.graph_.getTopologicalOrder
  if execution_order.isEmpty then
    ⟨[], ex0, .error "Graph has no valid execution order (possibly cyclic)"⟩
  else
    let r := execLoop env hasCallback execution_order.length
      execution_order.enum ex0 []
    match r.2.2 with
    | .error e => ⟨r.1, r.2.1, .error e⟩
    | .ok _ => ⟨r.1, r.2.1, .ok r.2.1.getResult⟩

/-- `GraphExecutor::execute` (null progress callback). -/
def execute (env : Env) (ex : GraphExecutor) : RunOutcome :=
  executeWithProgress env false ex

/-- `GraphExecutor::buildGraph`: nodes via the factory (its failure aborts
the load), ROI applied, added in configuration order into the executor's
current graph; then every configured connection via `Graph::addConnection`.
The `setImagePath` calls re-assign the path the factory already stored, so
they leave no trace. -/
def buildGraph (env : Env) (ex : GraphExecutor) (config : GraphConfig) :
    Except String GraphExecutor := do
  let ex1 ← config.nodes.foldlM (fun (acc : GraphExecutor) nc => do
    let node ← createNode env nc.id nc.type nc.parameters nc.image_path
    let node := { node with roi_ := nc.roi }
    pure { acc with graph_ := acc.graph_.addNode node }) ex
  pure (config.connections.foldl (fun (acc : GraphExecutor) cc =>
    { acc with graph_ :=
        acc.graph_.addConnection cc.from_node cc.from_port cc.to_node cc.to_port })
    ex1)

/-- `GraphExecutor::validateGraph`: a cycle is fatal; the first input-typed
node with incoming connections is fatal; output-typed nodes with outgoing
connections only produce a console warning (no effect on the result). -/
def validateGraph (ex : GraphExecutor) : Except String Unit :=
  if ex.graph_.hasCycles then
    .error "Graph contains cycles - cannot execute"
  else
    match ex.graph_.nodes_.find? (fun n =>
        n.type_ = "input" && !(ex.graph_.getIncomingConnections n.id_).isEmpty) with
    | some n => .error ("Input node has incoming connections: " ++ n.getName)
    | none => .ok ()

/-- `GraphExecutor::loadGraph(config)`: clear cached results, build, then
validate; update the statistics on success. -/
def loadGraph (env : Env) (ex : GraphExecutor) (config : GraphConfig) :
    Except String GraphExecutor :=
  let ex0 := ex.clearResults
  match buildGraph env ex0 config with
  | .error e => .error e
  | .ok ex1 =>
    match ex1.validateGraph with
    | .error e => .error e
    | .ok _ => .ok { ex1 with stats_ :=
        { total_nodes := (ex1.graph_.getNodeCount : Int),
          executed_nodes := 0 } }

end GraphExecutor

/-! ## General facts about the embedded operations -/

lemma hasInput_iff (n : GraphNode) (i : NodeId) :
    n.hasInput i = true ↔ i ∈ n.input_node_ids_ := by
  simp [GraphNode.hasInput, List.contains_iff_exists_mem_beq, beq_iff_eq]

lemma hasInput_eq_false (n : GraphNode) (i : NodeId)
    (hm : i ∉ n.input_node_ids_) : n.hasInput i = false :=
  Bool.eq_false_iff.mpr (fun ht => hm ((hasInput_iff n i).mp ht))

lemma hasOutput_iff (n : GraphNode) (i : NodeId) :
    n.hasOutput i = true ↔ i ∈ n.output_node_ids_ := by
  simp [GraphNode.hasOutput, List.contains_iff_exists_mem_beq, beq_iff_eq]

lemma hasOutput_eq_false (n : GraphNode) (i : NodeId)
    (hm : i ∉ n.output_node_ids_) : n.hasOutput i = false :=
  Bool.eq_false_iff.mpr (fun ht => hm ((hasOutput_iff n i).mp ht))

/-- C9, the `GraphNode` adjacency-list contract: `addInput`/`addOutput` are
idempotent on an already-present id and preserve duplicate-freeness;
`removeInput`/`removeOutput` report whether an entry existed and erase it. -/
theorem addInput_addOutput_remove_spec (n : GraphNode) (id : NodeId) :
    (id ∈ n.input_node_ids_ → n.addInput id = n) ∧
    (id ∈ n.output_node_ids_ → n.addOutput id = n) ∧
    (n.input_node_ids_.Nodup → (n.addInput id).input_node_ids_.Nodup) ∧
    (n.output_node_ids_.Nodup → (n.addOutput id).output_node_ids_.Nodup) ∧
    ((n.removeInput id).2 = true ↔ id ∈ n.input_node_ids_) ∧
    ((n.removeOutput id).2 = true ↔ id ∈ n.output_node_ids_) ∧
    ((n.removeInput id).1.input_node_ids_ = n.input_node_ids_.erase id) ∧
    ((n.removeOutput id).1.output_node_ids_ = n.output_node_ids_.erase id) := by
  refine ⟨?_, ?_, ?_, ?_, ?_, ?_, ?_, ?_⟩
  · intro h
    simp [GraphNode.addInput, (hasInput_iff n id).mpr h]
  · intro h
    simp [GraphNode.addOutput, (hasOutput_iff n id).mpr h]
  · intro h
    by_cases hm : id ∈ n.input_node_ids_
    · simp [GraphNode.addInput, (hasInput_iff n id).mpr hm, h]
    · have : n.hasInput id = false := hasInput_eq_false n id hm
      simp [GraphNode.addInput, this, List.nodup_append, h, hm]
  · intro h
    by_cases hm : id ∈ n.output_node_ids_
    · simp [GraphNode.addOutput, (hasOutput_iff n id).mpr hm, h]
    · have : n.hasOutput id = false := hasOutput_eq_false n id hm
      simp [GraphNode.addOutput, this, List.nodup_append, h, hm]
  · by_cases hm : id ∈ n.input_node_ids_
    · simp [GraphNode.removeInput, (hasInput_iff n id).mpr hm, hm]
    · have : n.hasInput id = false := hasInput_eq_false n id hm
      simp [GraphNode.removeInput, this, hm]
  · by_cases hm : id ∈ n.output_node_ids_
    · simp [GraphNode.removeOutput, (hasOutput_iff n id).mpr hm, hm]
    · have : n.hasOutput id = false := hasOutput_eq_false n id hm
      simp [GraphNode.removeOutput, this, hm]
  · by_cases hm : id ∈ n.input_node_ids_
    · simp [GraphNode.removeInput, (hasInput_iff n id).mpr hm]
    · have hb : n.hasInput id = false := hasInput_eq_false n id hm
      simp [GraphNode.removeInput, hb, List.erase_of_not_mem hm]
  · by_cases hm : id ∈ n.output_node_ids_
    · simp [GraphNode.removeOutput, (hasOutput_iff n id).mpr hm]
    · have hb : n.hasOutput id = false := hasOutput_eq_false n id hm
      simp [GraphNode.removeOutput, hb, List.erase_of_not_mem hm]

/-- A concrete node used by the C9 witness. -/
def nodeW : GraphNode :=
  { id_ := "n", type_ := "op", name_ := "n",
    input_node_ids_ := ["a"], output_node_ids_ := ["b"] }

/-- Witness for C9 at a concrete node. -/
theorem addInput_addOutput_remove_spec_witness :
    nodeW.addInput "a" = nodeW ∧ nodeW.addOutput "b" = nodeW ∧
    (nodeW.removeInput "a").2 = true ∧ (nodeW.removeOutput "x").2 = false := by
  have h := addInput_addOutput_remove_spec nodeW "a"
  have h' := addInput_addOutput_remove_spec nodeW "b"
  have h'' := addInput_addOutput_remove_spec nodeW "x"
  refine ⟨h.1 (by decide), h'.2.1 (by decide), (h.2.2.2.2.1).mpr (by decide), ?_⟩
  exact Bool.eq_false_iff.mpr
    (fun ht => (by decide : ("x" : NodeId) ∉ nodeW.output_node_ids_)
      ((h''.2.2.2.2.2.1).mp ht))

lemma topologicalSort_nil (g : Graph) (h : g.nodes_ = []) :
    g.topologicalSort = [] := by
  simp [Graph.topologicalSort, h, Graph.kahnRounds]

lemma getTopologicalOrder_nil (g : Graph) (h : g.nodes_ = []) :
    g.getTopologicalOrder = [] := by
  simp [Graph.getTopologicalOrder, topologicalSort_nil g h]

/-- C10: executing a zero-node graph always fails with the
no-valid-execution-order error (the empty topological order is
indistinguishable from the cycle signal), for both entry points. -/
theorem execute_empty_graph_fails (env : Env) (hasCallback : Bool)
    (ex : GraphExecutor) (h : ex.graph_.nodes_ = []) :
    (GraphExecutor.executeWithProgress env hasCallback ex).ret =
      Except.error "Graph has no valid execution order (possibly cyclic)" ∧
    (GraphExecutor.execute env ex).ret =
      Except.error "Graph has no valid execution order (possibly cyclic)" := by
  have hord : ex.clearResults.graph_.getTopologicalOrder = [] :=
    getTopologicalOrder_nil _ h
  constructor <;>
    simp [GraphExecutor.execute, GraphExecutor.executeWithProgress, hord]

/-- Witness for C10: the default-constructed executor. -/
theorem execute_empty_graph_fails_witness :
    (GraphExecutor.executeWithProgress
        ⟨fun _ => Mat.empty, fun _ _ => true, fun _ m _ _ => Except.ok m,
          fun _ => true⟩ true {}).ret =
      Except.error "Graph has no valid execution order (possibly cyclic)" :=
  (execute_empty_graph_fails _ true {} rfl).1

/-! ## Concrete instances used by witnesses and counterexamples -/

/-- An environment with one readable image at path "p" and a total
operation registry containing "op1". -/
def env0 : Env :=
  { imread := fun p => if p = "p" then Mat.img 5 else Mat.empty,
    imwrite := fun _ _ => true,
    runOp := fun _ _ _ _ => Except.ok (Mat.img 7),
    knownOp := fun t => t = "op1" }

/-- Two unconnected nodes "a" and "b". -/
def gAB : Graph :=
  (Graph.addNode {} { id_ := "a", type_ := "op1", name_ := "a" }).addNode
    { id_ := "b", type_ := "op1", name_ := "b" }

/-- Executor whose graph is "b" (an input node reading "p") feeding "a"
(an operation node), connected through `addConnection`; no output-typed
node, and the sorted cache order ("a" before "b") differs from the
execution order ("b" before "a"). -/
def exBA : GraphExecutor :=
  { graph_ :=
      ((Graph.addNode {}
          { id_ := "b", type_ := "input", name_ := "b", image_path_ := "p" }).addNode
        { id_ := "a", type_ := "op1", name_ := "a" }).addConnection "b" 0 "a" 0 }

lemma getNode_eq_of_nodes_eq {g g' : Graph} (h : g'.nodes_ = g.nodes_) :
    g'.getNode = g.getNode := by
  funext id
  unfold Graph.getNode
  rw [h]

lemma kahnVisit_eq_of_nodes_eq {g g' : Graph} (h : g'.nodes_ = g.nodes_) :
    Graph.kahnVisit g' = Graph.kahnVisit g := by
  funext st cur
  unfold Graph.kahnVisit
  rw [getNode_eq_of_nodes_eq h]

lemma kahnRounds_eq_of_nodes_eq {g g' : Graph} (h : g'.nodes_ = g.nodes_) :
    ∀ fuel deg queue, Graph.kahnRounds g' fuel deg queue =
      Graph.kahnRounds g fuel deg queue := by
  intro fuel
  induction fuel with
  | zero => intro deg queue; rfl
  | succ f ih =>
    intro deg queue
    unfold Graph.kahnRounds
    rw [kahnVisit_eq_of_nodes_eq h]
    by_cases hq : queue.isEmpty
    · simp [hq]
    · simp [hq, ih]

lemma topologicalSort_eq_of_nodes_eq {g g' : Graph}
    (h : g'.nodes_ = g.nodes_) : g'.topologicalSort = g.topologicalSort := by
  unfold Graph.topologicalSort
  rw [h]
  simp only [kahnRounds_eq_of_nodes_eq h]

/-- C4 counterexample: with both endpoints absent, `addConnection` is not a
no-op — the connection record is appended regardless. -/
theorem addConnection_missing_endpoint_counterexample :
    Graph.addConnection {} "a" 0 "b" 0 ≠ ({} : Graph) := by decide

/-- C4 amended: with a missing endpoint, `connectNodes` is a complete
no-op, while `addConnection` leaves the node map (hence every node's
input/output lists) and the designated ids unchanged but still appends the
connection record and recomputes the execution levels of the unchanged
node set. -/
theorem connect_missing_endpoint_amended (g : Graph) (a b : NodeId)
    (fp tp : Int) (h : g.getNode a = none ∨ g.getNode b = none) :
    g.connectNodes a b = g ∧
    (g.addConnection a fp b tp).nodes_ = g.nodes_ ∧
    (g.addConnection a fp b tp).connections_ =
      g.connections_ ++ [⟨a, fp, b, tp⟩] ∧
    (g.addConnection a fp b tp).input_node_id_ = g.input_node_id_ ∧
    (g.addConnection a fp b tp).output_node_id_ = g.output_node_id_ ∧
    (g.addConnection a fp b tp).execution_levels_ = g.topologicalSort := by
  have hca : ((g.getNode a).isSome && (g.getNode b).isSome) = false := by
    rcases h with h' | h' <;> simp [h']
  have hmain : g.addConnection a fp b tp =
      { g with connections_ := g.connections_ ++ [⟨a, fp, b, tp⟩],
               execution_levels_ := Graph.topologicalSort
                 { g with connections_ := g.connections_ ++ [⟨a, fp, b, tp⟩] } } := by
    unfold Graph.addConnection Graph.updateExecutionLevels
    have hca' : ((({ g with connections_ := g.connections_ ++ [⟨a, fp, b, tp⟩] } :
          Graph).getNode a).isSome &&
        (({ g with connections_ := g.connections_ ++ [⟨a, fp, b, tp⟩] } :
          Graph).getNode b).isSome) = false := hca
    dsimp only
    rw [hca']
    simp
  refine ⟨?_, ?_, ?_, ?_, ?_, ?_⟩
  · simp [Graph.connectNodes, hca]
  · rw [hmain]
  · rw [hmain]
  · rw [hmain]
  · rw [hmain]
  · rw [hmain]
    exact topologicalSort_eq_of_nodes_eq rfl

/-- Witness for C4 at the empty graph. -/
theorem connect_missing_endpoint_amended_witness :
    Graph.connectNodes {} "a" "b" = ({} : Graph) ∧
    (Graph.addConnection {} "a" 0 "b" 0).connections_ = [⟨"a", 0, "b", 0⟩] := by
  have h := connect_missing_endpoint_amended {} "a" "b" 0 0 (Or.inl rfl)
  exact ⟨h.1, h.2.2.1⟩

/-- C6 amended: `getResult` returns the empty sentinel on an empty cache;
with an output-typed node present, the first such node's cached result (by
node-map iteration order); with none, the last entry of the id-sorted
result map — the greatest cached id, not the node cached last during
execution. -/
theorem getResult_branches (ex : GraphExecutor) :
    (ex.node_results_ = [] → ex.getResult = Mat.empty) ∧
    (∀ o rest m, ex.graph_.getNodesByType "output" = o :: rest →
      amLookup ex.node_results_ o = some m → ex.getResult = m) ∧
    (ex.graph_.getNodesByType "output" = [] →
      ∀ e, ex.node_results_.getLast? = some e → ex.getResult = e.2) := by
  refine ⟨?_, ?_, ?_⟩
  · intro h
    simp [GraphExecutor.getResult, h]
  · intro o rest m hout hm
    unfold GraphExecutor.getResult
    cases hl : ex.node_results_.getLast? with
    | none =>
      rw [List.getLast?_eq_none_iff] at hl
      rw [hl] at hm
      simp [amLookup] at hm
    | some e =>
      rw [hout]
      dsimp only
      simp [hm]
  · intro hout e hl
    simp [GraphExecutor.getResult, hl, hout]

/-- Witness for C6 on a concrete two-entry cache without output nodes. -/
theorem getResult_branches_witness :
    GraphExecutor.getResult
      { graph_ := gAB,
        node_results_ := [("a", Mat.img 1), ("b", Mat.img 2)] } = Mat.img 2 := by
  refine (getResult_branches _).2.2 (by decide) ("b", Mat.img 2) (by decide)

/-- C6 counterexample: an executed two-node chain "b" → "a" with no
output-typed node.  The node cached last during execution is "a" (its
result is `Mat.img 7`, as the trace shows), but `getResult` returns the
result of "b" (`Mat.img 5`), the greatest id in the sorted cache. -/
theorem getResult_last_cached_counterexample :
    (GraphExecutor.executeWithProgress env0 true exBA).exec.graph_.getNodesByType
        "output" = [] ∧
    (GraphExecutor.executeWithProgress env0 true exBA).events.getLast? =
      some (Ev.run "a" (Mat.img 7)) ∧
    amLookup (GraphExecutor.executeWithProgress env0 true exBA).exec.node_results_
        "a" = some (Mat.img 7) ∧
    (GraphExecutor.executeWithProgress env0 true exBA).exec.getResult =
      Mat.img 5 ∧
    (GraphExecutor.executeWithProgress env0 true exBA).exec.getResult ≠
      Mat.img 7 := by
  refine ⟨by decide, by decide, by decide, by decide, by decide⟩

lemma addOutput_id (n : GraphNode) (b : NodeId) : (n.addOutput b).id_ = n.id_ := by
  unfold GraphNode.addOutput
  by_cases h : n.hasOutput b = true <;> simp [h]

lemma addInput_id (n : GraphNode) (a : NodeId) : (n.addInput a).id_ = n.id_ := by
  unfold GraphNode.addInput
  by_cases h : n.hasInput a = true <;> simp [h]

lemma mem_addOutput (n : GraphNode) (b : NodeId) :
    b ∈ (n.addOutput b).output_node_ids_ := by
  unfold GraphNode.addOutput
  by_cases h : n.hasOutput b = true
  · simp [h, (hasOutput_iff n b).mp h]
  · simp [h]

lemma mem_addInput (n : GraphNode) (a : NodeId) :
    a ∈ (n.addInput a).input_node_ids_ := by
  unfold GraphNode.addInput
  by_cases h : n.hasInput a = true
  · simp [h, (hasInput_iff n a).mp h]
  · simp [h]

lemma addInput_output_eq (n : GraphNode) (a : NodeId) :
    (n.addInput a).output_node_ids_ = n.output_node_ids_ := by
  unfold GraphNode.addInput
  by_cases h : n.hasInput a = true <;> simp [h]

lemma addOutput_input_eq (n : GraphNode) (b : NodeId) :
    (n.addOutput b).input_node_ids_ = n.input_node_ids_ := by
  unfold GraphNode.addOutput
  by_cases h : n.hasOutput b = true <;> simp [h]

lemma find?_nmUpdate_self (k : NodeId) (f : GraphNode → GraphNode)
    (hf : ∀ m, (f m).id_ = m.id_) :
    ∀ l : List GraphNode,
      (nmUpdate k f l).find? (fun n => n.id_ = k) =
        (l.find? (fun n => n.id_ = k)).map f
  | [] => rfl
  | m :: ms => by
    by_cases hm : m.id_ = k
    · rw [nmUpdate, if_pos hm]
      rw [List.find?_cons_of_pos _ (by simp [hf, hm]),
        List.find?_cons_of_pos _ (by simp [hm])]
      rfl
    · rw [nmUpdate, if_neg hm]
      rw [List.find?_cons_of_neg _ (by simp [hm]),
        List.find?_cons_of_neg _ (by simp [hm])]
      exact find?_nmUpdate_self k f hf ms

lemma find?_nmUpdate_ne (k k' : NodeId) (f : GraphNode → GraphNode)
    (hf : ∀ m, (f m).id_ = m.id_) (hne : k' ≠ k) :
    ∀ l : List GraphNode,
      (nmUpdate k f l).find? (fun n => n.id_ = k') =
        l.find? (fun n => n.id_ = k')
  | [] => rfl
  | m :: ms => by
    by_cases hm : m.id_ = k
    · rw [nmUpdate, if_pos hm]
      rw [List.find?_cons_of_neg _ (by simp [hf, hm]; exact fun e => hne e.symm),
        List.find?_cons_of_neg _ (by simp [hm]; exact fun e => hne e.symm)]
    · rw [nmUpdate, if_neg hm]
      by_cases hm' : m.id_ = k'
      · rw [List.find?_cons_of_pos _ (by simp [hm']),
          List.find?_cons_of_pos _ (by simp [hm'])]
      · rw [List.find?_cons_of_neg _ (by simp [hm']),
          List.find?_cons_of_neg _ (by simp [hm'])]
        exact find?_nmUpdate_ne k k' f hf hne ms

/-- The invariant C3 claims after every structural mutation: an edge is in
the connection list exactly when it is recorded in both endpoints' node-local
lists. -/
def connListConsistent (g : Graph) : Prop :=
  ∀ a b : NodeId,
    (∃ c ∈ g.connections_, c.from_node = a ∧ c.to_node = b) ↔
    ((∃ n ∈ g.nodes_, n.id_ = a ∧ b ∈ n.output_node_ids_) ∧
     (∃ m ∈ g.nodes_, m.id_ = b ∧ a ∈ m.input_node_ids_))

/-- C3 counterexample: `connectNodes` records the edge only in the two
nodes' id lists and never in the connection list, so the claimed invariant
is already broken by one `connectNodes` on two fresh nodes. -/
theorem connect_consistency_counterexample :
    ¬ connListConsistent (gAB.connectNodes "a" "b") := by
  intro h
  have h2 : ∃ c ∈ (gAB.connectNodes "a" "b").connections_,
      c.from_node = "a" ∧ c.to_node = "b" :=
    (h "a" "b").mpr (by decide)
  exact absurd h2 (by decide)

/-- C3 amended: the two stores are maintained independently.
`addConnection` with both endpoints present records the edge in the
connection list and in both endpoints' node-local lists, while
`connectNodes` / `disconnectNodes` never touch the connection list. -/
theorem addConnection_records_edge_amended (g : Graph) (a b : NodeId)
    (fp tp : Int) (ha : (g.getNode a).isSome = true)
    (hb : (g.getNode b).isSome = true) :
    ((⟨a, fp, b, tp⟩ : Connection) ∈ (g.addConnection a fp b tp).connections_) ∧
    (∃ n ∈ (g.addConnection a fp b tp).nodes_,
      n.id_ = a ∧ b ∈ n.output_node_ids_) ∧
    (∃ m ∈ (g.addConnection a fp b tp).nodes_,
      m.id_ = b ∧ a ∈ m.input_node_ids_) ∧
    (g.connectNodes a b).connections_ = g.connections_ ∧
    (g.disconnectNodes a b).connections_ = g.connections_ := by
  obtain ⟨na, hna⟩ := Option.isSome_iff_exists.mp ha
  obtain ⟨nb, hnb⟩ := Option.isSome_iff_exists.mp hb
  have hcond : ((g.getNode a).isSome && (g.getNode b).isSome) = true := by
    simp [ha, hb]
  have hmain : (g.addConnection a fp b tp).nodes_ =
      nmUpdate b (fun n => n.addInput a)
        (nmUpdate a (fun n => n.addOutput b) g.nodes_) := by
    unfold Graph.addConnection Graph.updateExecutionLevels
    dsimp only
    rw [if_pos (by exact hcond)]
  have hconn : (g.addConnection a fp b tp).connections_ =
      g.connections_ ++ [⟨a, fp, b, tp⟩] := by
    unfold Graph.addConnection Graph.updateExecutionLevels
    dsimp only
    rw [if_pos (by exact hcond)]
  have hfa : ∀ m : GraphNode, (GraphNode.addOutput m b).id_ = m.id_ :=
    fun m => addOutput_id m b
  have hfb : ∀ m : GraphNode, (GraphNode.addInput m a).id_ = m.id_ :=
    fun m => addInput_id m a
  refine ⟨?_, ?_, ?_, ?_, ?_⟩
  · rw [hconn]
    simp
  · -- the from-endpoint's output list records b
    by_cases hab : a = b
    · subst hab
      have hfind : (g.addConnection a fp a tp).nodes_.find?
          (fun n => n.id_ = a) = some ((na.addOutput a).addInput a) := by
        rw [hmain, find?_nmUpdate_self a _ hfb, find?_nmUpdate_self a _ hfa]
        rw [Graph.getNode] at hna
        rw [hna]
        rfl
      refine ⟨(na.addOutput a).addInput a, List.mem_of_find?_eq_some hfind, ?_, ?_⟩
      · have := List.find?_some hfind
        simpa using this
      · rw [addInput_output_eq]
        exact mem_addOutput na a
    · have hfind : (g.addConnection a fp b tp).nodes_.find?
          (fun n => n.id_ = a) = some (na.addOutput b) := by
        rw [hmain, find?_nmUpdate_ne b a _ hfb (fun e => hab e),
          find?_nmUpdate_self a _ hfa]
        rw [Graph.getNode] at hna
        rw [hna]
        rfl
      refine ⟨na.addOutput b, List.mem_of_find?_eq_some hfind, ?_, mem_addOutput na b⟩
      have := List.find?_some hfind
      simpa using this
  · -- the to-endpoint's input list records a
    by_cases hab : a = b
    · subst hab
      have hfind : (g.addConnection a fp a tp).nodes_.find?
          (fun n => n.id_ = a) = some ((na.addOutput a).addInput a) := by
        rw [hmain, find?_nmUpdate_self a _ hfb, find?_nmUpdate_self a _ hfa]
        rw [Graph.getNode] at hna
        rw [hna]
        rfl
      refine ⟨(na.addOutput a).addInput a, List.mem_of_find?_eq_some hfind, ?_,
        mem_addInput (na.addOutput a) a⟩
      have := List.find?_some hfind
      simpa using this
    · have hfind : (g.addConnection a fp b tp).nodes_.find?
          (fun n => n.id_ = b) = some (nb.addInput a) := by
        rw [hmain, find?_nmUpdate_self b _ hfb,
          find?_nmUpdate_ne a b _ hfa (fun e => hab e.symm)]
        rw [Graph.getNode] at hnb
        rw [hnb]
        rfl
      refine ⟨nb.addInput a, List.mem_of_find?_eq_some hfind, ?_,
        mem_addInput nb a⟩
      have := List.find?_some hfind
      simpa using this
  · unfold Graph.connectNodes Graph.updateExecutionLevels
    by_cases hc : ((g.getNode a).isSome && (g.getNode b).isSome) = true
    · rw [if_pos hc]
    · rw [if_neg hc]
  · unfold Graph.disconnectNodes Graph.updateExecutionLevels
    by_cases hc : ((g.getNode a).isSome && (g.getNode b).isSome) = true
    · rw [if_pos hc]
    · rw [if_neg hc]

/-- Witness for C3 on the two-node graph. -/
theorem addConnection_records_edge_amended_witness :
    ((⟨"a", 0, "b", 0⟩ : Connection) ∈
      (gAB.addConnection "a" 0 "b" 0).connections_) ∧
    (∃ n ∈ (gAB.addConnection "a" 0 "b" 0).nodes_,
      n.id_ = "a" ∧ "b" ∈ n.output_node_ids_) := by
  have h := addConnection_records_edge_amended gAB "a" "b" 0 0
    (by decide) (by decide)
  exact ⟨h.1, h.2.1⟩

lemma removeInput_fst_id (n : GraphNode) (i : NodeId) :
    ((n.removeInput i).1).id_ = n.id_ := by
  unfold GraphNode.removeInput
  by_cases h : n.hasInput i = true <;> simp [h]

lemma removeOutput_fst_id (n : GraphNode) (i : NodeId) :
    ((n.removeOutput i).1).id_ = n.id_ := by
  unfold GraphNode.removeOutput
  by_cases h : n.hasOutput i = true <;> simp [h]

lemma removeInput_fst_inputs (n : GraphNode) (i : NodeId) :
    ((n.removeInput i).1).input_node_ids_ = n.input_node_ids_.erase i := by
  unfold GraphNode.removeInput
  by_cases h : n.hasInput i = true
  · simp [h]
  · simp [h, List.erase_of_not_mem (fun hm => absurd ((hasInput_iff n i).mpr hm)
      (by simp [h]))]

lemma removeOutput_fst_outputs (n : GraphNode) (i : NodeId) :
    ((n.removeOutput i).1).output_node_ids_ = n.output_node_ids_.erase i := by
  unfold GraphNode.removeOutput
  by_cases h : n.hasOutput i = true
  · simp [h]
  · simp [h, List.erase_of_not_mem (fun hm => absurd ((hasOutput_iff n i).mpr hm)
      (by simp [h]))]

lemma removeInput_fst_outputs (n : GraphNode) (i : NodeId) :
    ((n.removeInput i).1).output_node_ids_ = n.output_node_ids_ := by
  unfold GraphNode.removeInput
  by_cases h : n.hasInput i = true <;> simp [h]

lemma removeOutput_fst_inputs (n : GraphNode) (i : NodeId) :
    ((n.removeOutput i).1).input_node_ids_ = n.input_node_ids_ := by
  unfold GraphNode.removeOutput
  by_cases h : n.hasOutput i = true <;> simp [h]

lemma nmUpdate_of_find?_none (k : NodeId) (f : GraphNode → GraphNode) :
    ∀ l : List GraphNode, l.find? (fun n => n.id_ = k) = none →
      nmUpdate k f l = l
  | [], _ => rfl
  | m :: ms, h => by
    by_cases hm : m.id_ = k
    · rw [List.find?_cons_of_pos _ (by simp [hm])] at h
      exact absurd h (by simp)
    · rw [List.find?_cons_of_neg _ (by simp [hm])] at h
      rw [nmUpdate, if_neg hm, nmUpdate_of_find?_none k f ms h]

lemma keys_nmUpdate (k : NodeId) (f : GraphNode → GraphNode)
    (hf : ∀ m, (f m).id_ = m.id_) :
    ∀ l : List GraphNode,
      (nmUpdate k f l).map GraphNode.id_ = l.map GraphNode.id_
  | [] => rfl
  | m :: ms => by
    by_cases hm : m.id_ = k
    · simp [nmUpdate, hm, hf]
    · simp [nmUpdate, hm, keys_nmUpdate k f hf ms]

lemma find?_map_id_preserving (k : NodeId) (h : GraphNode → GraphNode)
    (hh : ∀ m, (h m).id_ = m.id_) :
    ∀ l : List GraphNode,
      (l.map h).find? (fun n => n.id_ = k) =
        (l.find? (fun n => n.id_ = k)).map h
  | [] => rfl
  | m :: ms => by
    by_cases hm : m.id_ = k
    · rw [List.map_cons, List.find?_cons_of_pos _ (by simp [hh, hm]),
        List.find?_cons_of_pos _ (by simp [hm])]
      rfl
    · rw [List.map_cons, List.find?_cons_of_neg _ (by simp [hh, hm]),
        List.find?_cons_of_neg _ (by simp [hm])]
      exact find?_map_id_preserving k h hh ms

lemma nmUpdate_eq_map (k : NodeId) (f : GraphNode → GraphNode) :
    ∀ l : List GraphNode, (l.map GraphNode.id_).Nodup →
      nmUpdate k f l = l.map (fun m => if m.id_ = k then f m else m)
  | [], _ => rfl
  | m :: ms, h => by
    by_cases hm : m.id_ = k
    · rw [nmUpdate, if_pos hm]
      have hknotin : k ∉ ms.map GraphNode.id_ := by
        rw [List.map_cons, List.nodup_cons] at h
        rw [← hm]
        exact h.1
      have hms : ms.map (fun m => if m.id_ = k then f m else m) = ms := by
        have hpt : ∀ x ∈ ms, (if x.id_ = k then f x else x) = x := by
          intro x hx
          refine if_neg (fun he => hknotin ?_)
          rw [← he]
          exact List.mem_map_of_mem GraphNode.id_ hx
        rw [List.map_congr_left hpt]
        exact List.map_id ms
      simp [hm, hms]
    · rw [nmUpdate, if_neg hm]
      rw [List.map_cons, List.nodup_cons] at h
      simp [hm, nmUpdate_eq_map k f ms h.2]

lemma detach_fold_nodes (f : GraphNode → GraphNode)
    (hf : ∀ m, (f m).id_ = m.id_) :
    ∀ (ids : List NodeId) (l : List GraphNode), ids.Nodup →
      (l.map GraphNode.id_).Nodup →
      ids.foldl (fun acc i => nmUpdate i f acc) l =
        l.map (fun m => if m.id_ ∈ ids then f m else m)
  | [], l, _, _ => by
    have : ∀ x ∈ l, (if x.id_ ∈ ([] : List NodeId) then f x else x) = x := by
      intro x _
      simp
    simp [List.map_congr_left this]
  | i :: rest, l, hids, hl => by
    rw [List.foldl_cons]
    rw [List.nodup_cons] at hids
    have hkeys : ((nmUpdate i f l).map GraphNode.id_).Nodup := by
      rw [keys_nmUpdate i f hf]
      exact hl
    rw [detach_fold_nodes f hf rest (nmUpdate i f l) hids.2 hkeys,
      nmUpdate_eq_map i f l hl, List.map_map]
    apply List.map_congr_left
    intro x _
    by_cases hxi : x.id_ = i
    · have hx1 : (if x.id_ = i then f x else x) = f x := if_pos hxi
      simp only [Function.comp_apply]
      rw [hx1, hf]
      rw [hxi, if_neg hids.1, if_pos (List.mem_cons_self i rest)]
    · have hx1 : (if x.id_ = i then f x else x) = x := if_neg hxi
      simp only [Function.comp_apply]
      rw [hx1]
      by_cases hxr : x.id_ ∈ rest
      · rw [if_pos hxr, if_pos (List.mem_cons_of_mem i hxr)]
      · rw [if_neg hxr, if_neg (by
          rw [List.mem_cons]
          exact fun h => h.elim (fun e => hxi e) hxr)]

lemma detach_fold_graph (f : GraphNode → GraphNode) :
    ∀ (ids : List NodeId) (g : Graph),
      (ids.foldl (fun acc i =>
        if (acc.getNode i).isSome then
          { acc with nodes_ := nmUpdate i f acc.nodes_ }
        else acc) g).nodes_ =
      ids.foldl (fun l i => nmUpdate i f l) g.nodes_
  | [], g => rfl
  | i :: rest, g => by
    rw [List.foldl_cons, List.foldl_cons]
    by_cases hc : (g.getNode i).isSome = true
    · rw [if_pos hc]
      exact detach_fold_graph f rest _
    · rw [if_neg hc]
      have hnone : g.nodes_.find? (fun n => n.id_ = i) = none := by
        rcases ho : g.getNode i with _ | v
        · exact ho
        · rw [ho] at hc
          simp at hc
      rw [nmUpdate_of_find?_none i f g.nodes_ hnone]
      exact detach_fold_graph f rest g

lemma mem_of_mem_nmErase (k : NodeId) :
    ∀ l : List GraphNode, ∀ m ∈ nmErase k l, m ∈ l
  | x :: xs, m, hm => by
    rw [nmErase] at hm
    by_cases hx : x.id_ = k
    · rw [if_pos hx] at hm
      exact List.mem_cons_of_mem x hm
    · rw [if_neg hx] at hm
      rcases List.mem_cons.mp hm with h | h
      · exact h ▸ List.mem_cons_self x xs
      · exact List.mem_cons_of_mem x (mem_of_mem_nmErase k xs m h)

lemma mem_nmErase_ne (k : NodeId) :
    ∀ l : List GraphNode, (l.map GraphNode.id_).Nodup →
      ∀ m ∈ nmErase k l, m.id_ ≠ k
  | x :: xs, h, m, hm => by
    rw [List.map_cons, List.nodup_cons] at h
    rw [nmErase] at hm
    by_cases hx : x.id_ = k
    · rw [if_pos hx] at hm
      intro he
      exact h.1 (hx ▸ he ▸ List.mem_map_of_mem GraphNode.id_ hm)
    · rw [if_neg hx] at hm
      rcases List.mem_cons.mp hm with h' | h'
      · exact h' ▸ hx
      · exact mem_nmErase_ne k xs h.2 m h'

/-- The mutual consistency of the nodes' own input/output id lists that C7
presupposes: an id is listed as an output of `n` exactly when `n` is listed
as an input of that node. -/
def nodeListsConsistent (g : Graph) : Prop :=
  ∀ n ∈ g.nodes_, ∀ m ∈ g.nodes_,
    (m.id_ ∈ n.output_node_ids_ ↔ n.id_ ∈ m.input_node_ids_)

/-- A graph whose node-list invariant holds but where "c" lists "a" twice
(reachable through `setInputNodeIds`). -/
def gDup : Graph :=
  { nodes_ := [ { id_ := "a", type_ := "op", name_ := "a",
                  output_node_ids_ := ["c"] },
                { id_ := "c", type_ := "op", name_ := "c",
                  input_node_ids_ := ["a", "a"] } ] }

/-- C7 counterexample: `removeInput` erases only one entry, so on a
mutually consistent graph with a duplicated input entry the removed id
survives in a remaining node's input list. -/
theorem removeNode_dangling_counterexample :
    nodeListsConsistent gDup ∧ (gDup.removeNode "a").2 = true ∧
    (∃ m ∈ (gDup.removeNode "a").1.nodes_, "a" ∈ m.input_node_ids_) := by
  refine ⟨by unfold nodeListsConsistent; decide, by decide, by decide⟩

lemma getNode_eq_find (g : Graph) (k : NodeId) :
    g.getNode k = g.nodes_.find? (fun n => n.id_ = k) := rfl

lemma removeNode_spec_aux (g : Graph) (node_id : NodeId) (node : GraphNode)
    (hnode : g.getNode node_id = some node)
    (hk : (g.nodes_.map GraphNode.id_).Nodup)
    (hin : node.input_node_ids_.Nodup)
    (hout : node.output_node_ids_.Nodup) :
    (g.removeNode node_id).2 = true ∧
    (g.removeNode node_id).1.nodes_ =
      nmErase node_id
        ((g.nodes_.map (fun m =>
            if m.id_ ∈ node.input_node_ids_
            then (m.removeOutput node_id).1 else m)).map (fun m =>
          if m.id_ ∈ (if node.id_ ∈ node.input_node_ids_
                      then (node.removeOutput node_id).1
                      else node).output_node_ids_
          then (m.removeInput node_id).1 else m)) := by
  have hf1id : ∀ m : GraphNode, ((m.removeOutput node_id).1).id_ = m.id_ :=
    fun m => removeOutput_fst_id m node_id
  have hf2id : ∀ m : GraphNode, ((m.removeInput node_id).1).id_ = m.id_ :=
    fun m => removeInput_fst_id m node_id
  have hif1id : ∀ m : GraphNode,
      ((fun m => if m.id_ ∈ node.input_node_ids_
                 then (m.removeOutput node_id).1 else m) m).id_ = m.id_ := by
    intro m
    by_cases hm : m.id_ ∈ node.input_node_ids_ <;> simp [hm, hf1id]
  unfold Graph.removeNode
  rw [hnode]
  dsimp only
  constructor
  · rfl
  · unfold Graph.updateExecutionLevels
    dsimp only
    have hF1 : (node.input_node_ids_.foldl
        (fun acc input_id =>
          if (acc.getNode input_id).isSome then
            { acc with nodes_ :=
                nmUpdate input_id (fun m => (m.removeOutput node_id).1) acc.nodes_ }
          else acc) g).nodes_ =
        g.nodes_.map (fun m =>
          if m.id_ ∈ node.input_node_ids_
          then (m.removeOutput node_id).1 else m) := by
      rw [detach_fold_graph]
      exact detach_fold_nodes _ hf1id node.input_node_ids_ g.nodes_ hin hk
    have hF1keys : (((node.input_node_ids_.foldl
        (fun acc input_id =>
          if (acc.getNode input_id).isSome then
            { acc with nodes_ :=
                nmUpdate input_id (fun m => (m.removeOutput node_id).1) acc.nodes_ }
          else acc) g).nodes_).map GraphNode.id_).Nodup := by
      have hcomp : (GraphNode.id_ ∘ fun m =>
          if m.id_ ∈ node.input_node_ids_
          then (m.removeOutput node_id).1 else m) = GraphNode.id_ :=
        funext hif1id
      rw [hF1, List.map_map, hcomp]
      exact hk
    have hfind : g.nodes_.find? (fun n => n.id_ = node_id) = some node := hnode
    have hnode1 : ((node.input_node_ids_.foldl
        (fun acc input_id =>
          if (acc.getNode input_id).isSome then
            { acc with nodes_ :=
                nmUpdate input_id (fun m => (m.removeOutput node_id).1) acc.nodes_ }
          else acc) g).getNode node_id).getD node =
        (if node.id_ ∈ node.input_node_ids_
         then (node.removeOutput node_id).1 else node) := by
      rw [getNode_eq_find, hF1, find?_map_id_preserving node_id _ hif1id, hfind]
      rfl
    rw [hnode1]
    congr 1
    rw [detach_fold_graph]
    rw [detach_fold_nodes _ hf2id _ _ ?hnd2 ?hkeys2]
    · rw [hF1]
    case hnd2 =>
      by_cases hm : node.id_ ∈ node.input_node_ids_
      · rw [if_pos hm, removeOutput_fst_outputs]
        exact hout.erase node_id
      · rw [if_neg hm]
        exact hout
    case hkeys2 => exact hF1keys

/-- C7 amended: `removeNode` on an absent id is a no-op returning false;
on a present id — when the node-local lists are mutually consistent AND
duplicate-free (`removeInput`/`removeOutput` erase a single entry, so a
duplicated entry would survive, as the counterexample shows) — it returns
true and the removed id is gone from the map and from every remaining
node's input and output lists. -/
theorem removeNode_detaches_amended (g : Graph) (node_id : NodeId)
    (hk : (g.nodes_.map GraphNode.id_).Nodup)
    (hc : nodeListsConsistent g)
    (hnd : ∀ n ∈ g.nodes_, n.input_node_ids_.Nodup ∧ n.output_node_ids_.Nodup) :
    (g.getNode node_id = none → g.removeNode node_id = (g, false)) ∧
    ((g.getNode node_id).isSome = true →
      (g.removeNode node_id).2 = true ∧
      ∀ m ∈ (g.removeNode node_id).1.nodes_,
        m.id_ ≠ node_id ∧ node_id ∉ m.input_node_ids_ ∧
        node_id ∉ m.output_node_ids_) := by
  constructor
  · intro h
    unfold Graph.removeNode
    rw [h]
  · intro h
    obtain ⟨node, hnode⟩ := Option.isSome_iff_exists.mp h
    have hmemnode : node ∈ g.nodes_ := List.mem_of_find?_eq_some hnode
    have hidnode : node.id_ = node_id := by
      have := List.find?_some hnode
      simpa using this
    obtain ⟨hndin, hndout⟩ := hnd node hmemnode
    obtain ⟨h2, hnodes⟩ := removeNode_spec_aux g node_id node hnode hk hndin hndout
    refine ⟨h2, ?_⟩
    intro m hm
    rw [hnodes] at hm
    have hif1id : ∀ x : GraphNode,
        ((fun m => if m.id_ ∈ node.input_node_ids_
                   then (m.removeOutput node_id).1 else m) x).id_ = x.id_ := by
      intro x
      by_cases hx : x.id_ ∈ node.input_node_ids_ <;> simp [hx, removeOutput_fst_id]
    have hif2id : ∀ x : GraphNode,
        ((fun m => if m.id_ ∈ (if node.id_ ∈ node.input_node_ids_
                               then (node.removeOutput node_id).1
                               else node).output_node_ids_
                   then (m.removeInput node_id).1 else m) x).id_ = x.id_ := by
      intro x
      by_cases hx : x.id_ ∈ (if node.id_ ∈ node.input_node_ids_
          then (node.removeOutput node_id).1 else node).output_node_ids_ <;>
        simp [hx, removeInput_fst_id]
    have hLkeys : ((((g.nodes_.map (fun m =>
        if m.id_ ∈ node.input_node_ids_
        then (m.removeOutput node_id).1 else m)).map (fun m =>
          if m.id_ ∈ (if node.id_ ∈ node.input_node_ids_
                      then (node.removeOutput node_id).1
                      else node).output_node_ids_
          then (m.removeInput node_id).1 else m))).map GraphNode.id_).Nodup := by
      have hcomp2 : (GraphNode.id_ ∘ fun m =>
          if m.id_ ∈ (if node.id_ ∈ node.input_node_ids_
                      then (node.removeOutput node_id).1
                      else node).output_node_ids_
          then (m.removeInput node_id).1 else m) = GraphNode.id_ :=
        funext hif2id
      have hcomp1 : (GraphNode.id_ ∘ fun m =>
          if m.id_ ∈ node.input_node_ids_
          then (m.removeOutput node_id).1 else m) = GraphNode.id_ :=
        funext hif1id
      rw [List.map_map, hcomp2, List.map_map, hcomp1]
      exact hk
    have hne : m.id_ ≠ node_id := mem_nmErase_ne node_id _ hLkeys m hm
    have hmL := mem_of_mem_nmErase node_id _ m hm
    obtain ⟨y, hy, hyeq⟩ := List.mem_map.mp hmL
    obtain ⟨m0, hm0, hm0eq⟩ := List.mem_map.mp hy
    obtain ⟨hm0in, hm0out⟩ := hnd m0 hm0
    have hyid : y.id_ = m0.id_ := by
      rw [← hm0eq]
      exact hif1id m0
    have hmid : m.id_ = m0.id_ := by
      rw [← hyeq, hif2id y, hyid]
    have hm0ne : m0.id_ ≠ node_id := hmid ▸ hne
    -- the input and output lists of the intermediate node y
    have hyin : y.input_node_ids_ = m0.input_node_ids_ := by
      rw [← hm0eq]
      by_cases hx : m0.id_ ∈ node.input_node_ids_ <;>
        simp [hx, removeOutput_fst_inputs]
    have hyout : y.output_node_ids_ =
        (if m0.id_ ∈ node.input_node_ids_
         then m0.output_node_ids_.erase node_id else m0.output_node_ids_) := by
      rw [← hm0eq]
      by_cases hx : m0.id_ ∈ node.input_node_ids_ <;>
        simp [hx, removeOutput_fst_outputs]
    refine ⟨hne, ?_, ?_⟩
    · -- node_id is gone from m's input list
      by_cases hyc : y.id_ ∈ (if node.id_ ∈ node.input_node_ids_
          then (node.removeOutput node_id).1 else node).output_node_ids_
      · have hmin : m.input_node_ids_ = y.input_node_ids_.erase node_id := by
          rw [← hyeq]
          simp [hyc, removeInput_fst_inputs]
        rw [hmin, hyin]
        intro hmem
        exact absurd ((hm0in.mem_erase_iff.mp hmem).1) (by simp)
      · have hmin : m.input_node_ids_ = m0.input_node_ids_ := by
          rw [← hyeq]
          simp [hyc, hyin]
        rw [hmin]
        intro hmem
        -- consistency forces m0's id into the detached output list
        have hout0 : m0.id_ ∈ node.output_node_ids_ :=
          (hc node hmemnode m0 hm0).mpr (hidnode ▸ hmem)
        apply hyc
        rw [hyid]
        by_cases hs : node.id_ ∈ node.input_node_ids_
        · rw [if_pos hs, removeOutput_fst_outputs]
          exact List.mem_erase_of_ne hm0ne |>.mpr hout0
        · rw [if_neg hs]
          exact hout0
    · -- node_id is gone from m's output list
      have hmout : m.output_node_ids_ = y.output_node_ids_ := by
        rw [← hyeq]
        by_cases hyc : y.id_ ∈ (if node.id_ ∈ node.input_node_ids_
            then (node.removeOutput node_id).1 else node).output_node_ids_ <;>
          simp [hyc, removeInput_fst_outputs]
      rw [hmout, hyout]
      by_cases hx : m0.id_ ∈ node.input_node_ids_
      · rw [if_pos hx]
        intro hmem
        exact absurd ((hm0out.mem_erase_iff.mp hmem).1) (by simp)
      · rw [if_neg hx]
        intro hmem
        exact hx ((hc m0 hm0 node hmemnode).mp (hidnode ▸ hmem))

/-- Witness for C7 on a concrete consistent two-node graph. -/
theorem removeNode_detaches_amended_witness :
    ((gAB.connectNodes "a" "b").removeNode "a").2 = true ∧
    (∀ m ∈ ((gAB.connectNodes "a" "b").removeNode "a").1.nodes_,
      m.id_ ≠ "a" ∧ "a" ∉ m.input_node_ids_ ∧ "a" ∉ m.output_node_ids_) := by
  have h := (removeNode_detaches_amended (gAB.connectNodes "a" "b") "a"
    (by decide) (by unfold nodeListsConsistent; decide)
    (by decide)).2 (by decide)
  exact h

/-! ## Semantic notions for the graph algorithms -/

/-- The directed edge relation the algorithms traverse: `a → b` when the
node stored under `a` lists `b` among its outputs. -/
def gEdge (g : Graph) (a b : NodeId) : Prop :=
  ∃ n ∈ g.nodes_, n.id_ = a ∧ b ∈ n.output_node_ids_

/-- A directed cycle: some id reaches itself by a nonempty edge path. -/
def hasCycle (g : Graph) : Prop := ∃ x, Relation.TransGen (gEdge g) x x

/-- The node ids in map order. -/
def idsOf (g : Graph) : List NodeId := g.nodes_.map GraphNode.id_

/-- The output list of the node stored under `p` (empty when absent),
as read by both DFS and Kahn's algorithm. -/
def outsOf (g : Graph) (p : NodeId) : List NodeId :=
  match g.getNode p with
  | some n => n.output_node_ids_
  | none => []

/-- Total in-degree of `x` (counting multiplicity across output lists). -/
def inDeg0 (g : Graph) (x : NodeId) : Nat :=
  (g.nodes_.map (fun n => n.output_node_ids_.count x)).sum

/-- Number of in-edge decrements `x` has received once every id of `P`
has been popped. -/
def decSum (g : Graph) (P : List NodeId) (x : NodeId) : Nat :=
  (P.map (fun p => (outsOf g p).count x)).sum

/-- Strict key-sortedness of an in-degree map (`std::map` invariant). -/
def degSorted (m : DegMap) : Prop :=
  m.Pairwise (fun e e' => e.1 < e'.1)

lemma strLt_eq_true_of_lt {a b : String} (h : a < b) : strLt a b = true :=
  (strLt_iff a b).mpr h

lemma strLt_eq_false_of_not_lt {a b : String} (h : ¬ a < b) :
    strLt a b = false :=
  Bool.eq_false_iff.mpr (fun ht => h ((strLt_iff a b).mp ht))

lemma degGet_nil (k : NodeId) : degGet [] k = 0 := rfl

lemma degGet_cons_self (e : NodeId × Int) (es : DegMap) (k : NodeId)
    (h : e.1 = k) : degGet (e :: es) k = e.2 := by
  unfold degGet
  rw [List.find?_cons_of_pos _ (by simp [h])]

lemma degGet_cons_ne (e : NodeId × Int) (es : DegMap) (k : NodeId)
    (h : e.1 ≠ k) : degGet (e :: es) k = degGet es k := by
  unfold degGet
  rw [List.find?_cons_of_neg _ (by simp [h])]

lemma degGet_degSet_self (k : NodeId) (v : Int) :
    ∀ m : DegMap, degGet (degSet k v m) k = v
  | [] => by
    unfold degSet
    exact degGet_cons_self (k, v) [] k rfl
  | e :: es => by
    unfold degSet
    by_cases hlt : k < e.1
    · rw [if_pos (strLt_eq_true_of_lt hlt)]
      exact degGet_cons_self (k, v) (e :: es) k rfl
    · rw [if_neg (by simp [strLt_eq_false_of_not_lt hlt])]
      by_cases heq : k = e.1
      · rw [if_pos heq]
        exact degGet_cons_self (k, v) es k rfl
      · rw [if_neg heq]
        rw [degGet_cons_ne e _ k (fun h => heq h.symm)]
        exact degGet_degSet_self k v es

lemma degGet_degSet_ne (k : NodeId) (v : Int) (k' : NodeId) (hne : k' ≠ k) :
    ∀ m : DegMap, degGet (degSet k v m) k' = degGet m k'
  | [] => by
    unfold degSet
    rw [degGet_cons_ne (k, v) [] k' (fun h => hne h.symm)]
  | e :: es => by
    unfold degSet
    by_cases hlt : k < e.1
    · rw [if_pos (strLt_eq_true_of_lt hlt)]
      exact degGet_cons_ne (k, v) (e :: es) k' (fun h => hne h.symm)
    · rw [if_neg (by simp [strLt_eq_false_of_not_lt hlt])]
      by_cases heq : k = e.1
      · rw [if_pos heq]
        rw [degGet_cons_ne (k, v) es k' (fun h => hne h.symm),
          degGet_cons_ne e es k' (fun h => hne (heq.trans h).symm)]
      · rw [if_neg heq]
        by_cases he' : e.1 = k'
        · rw [degGet_cons_self e _ k' he', degGet_cons_self e es k' he']
        · rw [degGet_cons_ne e _ k' he', degGet_cons_ne e es k' he']
          exact degGet_degSet_ne k v k' hne es

lemma mem_keys_degSorted_head {e : NodeId × Int} {es : DegMap}
    (hs : degSorted (e :: es)) : ∀ e' ∈ es, e.1 < e'.1 :=
  (List.pairwise_cons.mp hs).1

lemma degSorted_tail {e : NodeId × Int} {es : DegMap}
    (hs : degSorted (e :: es)) : degSorted es :=
  (List.pairwise_cons.mp hs).2

lemma degGet_eq_zero_of_lt_head {e : NodeId × Int} {es : DegMap} {k : NodeId}
    (hs : degSorted (e :: es)) (hk : k < e.1) : degGet (e :: es) k = 0 := by
  rw [degGet_cons_ne e es k (fun h => absurd (h ▸ hk) (lt_irrefl _))]
  induction es with
  | nil => rfl
  | cons e' es' ih =>
    have h1 : k < e'.1 := lt_trans hk (mem_keys_degSorted_head hs e'
      (List.mem_cons_self e' es'))
    rw [degGet_cons_ne e' es' k (fun h => absurd (h ▸ h1) (lt_irrefl _))]
    have hs' : degSorted (e :: es') := by
      rcases List.pairwise_cons.mp hs with ⟨hh, ht⟩
      exact List.pairwise_cons.mpr
        ⟨fun a ha => hh a (List.mem_cons_of_mem e' ha), degSorted_tail ht⟩
    exact ih hs'

lemma degGet_degAdd_self (k : NodeId) (d : Int) :
    ∀ m : DegMap, degSorted m → degGet (degAdd k d m) k = degGet m k + d
  | [], _ => by
    unfold degAdd
    rw [degGet_cons_self (k, d) [] k rfl, degGet_nil]
    ring
  | e :: es, hs => by
    unfold degAdd
    by_cases hlt : k < e.1
    · rw [if_pos (strLt_eq_true_of_lt hlt)]
      rw [degGet_cons_self (k, d) (e :: es) k rfl,
        degGet_eq_zero_of_lt_head hs hlt]
      ring
    · rw [if_neg (by simp [strLt_eq_false_of_not_lt hlt])]
      by_cases heq : k = e.1
      · rw [if_pos heq]
        rw [degGet_cons_self (k, e.2 + d) es k rfl,
          degGet_cons_self e es k heq.symm]
      · rw [if_neg heq]
        rw [degGet_cons_ne e _ k (fun h => heq h.symm),
          degGet_cons_ne e es k (fun h => heq h.symm)]
        exact degGet_degAdd_self k d es (degSorted_tail hs)

lemma degGet_degAdd_ne (k : NodeId) (d : Int) (k' : NodeId) (hne : k' ≠ k) :
    ∀ m : DegMap, degGet (degAdd k d m) k' = degGet m k'
  | [] => by
    unfold degAdd
    rw [degGet_cons_ne (k, d) [] k' (fun h => hne h.symm)]
  | e :: es => by
    unfold degAdd
    by_cases hlt : k < e.1
    · rw [if_pos (strLt_eq_true_of_lt hlt)]
      exact degGet_cons_ne (k, d) (e :: es) k' (fun h => hne h.symm)
    · rw [if_neg (by simp [strLt_eq_false_of_not_lt hlt])]
      by_cases heq : k = e.1
      · rw [if_pos heq]
        rw [degGet_cons_ne (k, e.2 + d) es k' (fun h => hne h.symm),
          degGet_cons_ne e es k' (fun h => hne (heq.trans h).symm)]
      · rw [if_neg heq]
        by_cases he' : e.1 = k'
        · rw [degGet_cons_self _ _ k' he', degGet_cons_self e es k' he']
        · rw [degGet_cons_ne _ _ k' he', degGet_cons_ne e es k' he']
          exact degGet_degAdd_ne k d k' hne es

lemma mem_degSet (k : NodeId) (v : Int) :
    ∀ m : DegMap, ∀ e' ∈ degSet k v m, e' = (k, v) ∨ e' ∈ m
  | [], e', h => by
    unfold degSet at h
    simp at h
    exact Or.inl h
  | e :: es, e', h => by
    unfold degSet at h
    by_cases hlt : k < e.1
    · rw [if_pos (strLt_eq_true_of_lt hlt)] at h
      rcases List.mem_cons.mp h with h1 | h1
      · exact Or.inl h1
      · exact Or.inr h1
    · rw [if_neg (by simp [strLt_eq_false_of_not_lt hlt])] at h
      by_cases heq : k = e.1
      · rw [if_pos heq] at h
        rcases List.mem_cons.mp h with h1 | h1
        · exact Or.inl h1
        · exact Or.inr (List.mem_cons_of_mem e h1)
      · rw [if_neg heq] at h
        rcases List.mem_cons.mp h with h1 | h1
        · exact Or.inr (h1 ▸ List.mem_cons_self e es)
        · rcases mem_degSet k v es e' h1 with h2 | h2
          · exact Or.inl h2
          · exact Or.inr (List.mem_cons_of_mem e h2)

lemma mem_degAdd (k : NodeId) (d : Int) :
    ∀ m : DegMap, ∀ e' ∈ degAdd k d m, e'.1 = k ∨ e' ∈ m
  | [], e', h => by
    unfold degAdd at h
    simp at h
    exact Or.inl (by rw [h])
  | e :: es, e', h => by
    unfold degAdd at h
    by_cases hlt : k < e.1
    · rw [if_pos (strLt_eq_true_of_lt hlt)] at h
      rcases List.mem_cons.mp h with h1 | h1
      · exact Or.inl (by rw [h1])
      · exact Or.inr h1
    · rw [if_neg (by simp [strLt_eq_false_of_not_lt hlt])] at h
      by_cases heq : k = e.1
      · rw [if_pos heq] at h
        rcases List.mem_cons.mp h with h1 | h1
        · exact Or.inl (by rw [h1])
        · exact Or.inr (List.mem_cons_of_mem e h1)
      · rw [if_neg heq] at h
        rcases List.mem_cons.mp h with h1 | h1
        · exact Or.inr (h1 ▸ List.mem_cons_self e es)
        · rcases mem_degAdd k d es e' h1 with h2 | h2
          · exact Or.inl h2
          · exact Or.inr (List.mem_cons_of_mem e h2)

lemma degSorted_degSet (k : NodeId) (v : Int) :
    ∀ m : DegMap, degSorted m → degSorted (degSet k v m)
  | [], _ => List.pairwise_singleton _ _
  | e :: es, hs => by
    unfold degSet
    by_cases hlt : k < e.1
    · rw [if_pos (strLt_eq_true_of_lt hlt)]
      exact List.pairwise_cons.mpr ⟨by
        intro e' he'
        rcases List.mem_cons.mp he' with h1 | h1
        · exact h1 ▸ hlt
        · exact lt_trans hlt (mem_keys_degSorted_head hs e' h1), hs⟩
    · rw [if_neg (by simp [strLt_eq_false_of_not_lt hlt])]
      by_cases heq : k = e.1
      · rw [if_pos heq]
        exact List.pairwise_cons.mpr ⟨by
          intro e' he'
          exact heq ▸ mem_keys_degSorted_head hs e' he', degSorted_tail hs⟩
      · rw [if_neg heq]
        have hgt : e.1 < k :=
          (lt_trichotomy k e.1).resolve_left hlt |>.resolve_left heq
        exact List.pairwise_cons.mpr ⟨by
          intro e' he'
          rcases mem_degSet k v es e' he' with h1 | h1
          · rw [h1]
            exact hgt
          · exact mem_keys_degSorted_head hs e' h1,
          degSorted_degSet k v es (degSorted_tail hs)⟩

lemma degSorted_degAdd (k : NodeId) (d : Int) :
    ∀ m : DegMap, degSorted m → degSorted (degAdd k d m)
  | [], _ => List.pairwise_singleton _ _
  | e :: es, hs => by
    unfold degAdd
    by_cases hlt : k < e.1
    · rw [if_pos (strLt_eq_true_of_lt hlt)]
      exact List.pairwise_cons.mpr ⟨by
        intro e' he'
        rcases List.mem_cons.mp he' with h1 | h1
        · exact h1 ▸ hlt
        · exact lt_trans hlt (mem_keys_degSorted_head hs e' h1), hs⟩
    · rw [if_neg (by simp [strLt_eq_false_of_not_lt hlt])]
      by_cases heq : k = e.1
      · rw [if_pos heq]
        exact List.pairwise_cons.mpr ⟨by
          intro e' he'
          exact heq ▸ mem_keys_degSorted_head hs e' he', degSorted_tail hs⟩
      · rw [if_neg heq]
        have hgt : e.1 < k :=
          (lt_trichotomy k e.1).resolve_left hlt |>.resolve_left heq
        exact List.pairwise_cons.mpr ⟨by
          intro e' he'
          rcases mem_degAdd k d es e' he' with h1 | h1
          · rw [h1]
            exact hgt
          · exact mem_keys_degSorted_head hs e' h1,
          degSorted_degAdd k d es (degSorted_tail hs)⟩

lemma keys_degSet_iff (k : NodeId) (v : Int) (x : NodeId) :
    ∀ m : DegMap,
      (x ∈ (degSet k v m).map Prod.fst ↔ x = k ∨ x ∈ m.map Prod.fst)
  | [] => by
    unfold degSet
    simp
  | e :: es => by
    unfold degSet
    by_cases hlt : k < e.1
    · rw [if_pos (strLt_eq_true_of_lt hlt)]
      simp [or_assoc]
    · rw [if_neg (by simp [strLt_eq_false_of_not_lt hlt])]
      by_cases heq : k = e.1
      · rw [if_pos heq]
        simp only [List.map_cons, List.mem_cons]
        constructor
        · rintro (h | h)
          · exact Or.inl h
          · exact Or.inr (Or.inr h)
        · rintro (h | h | h)
          · exact Or.inl h
          · exact Or.inl (h.trans heq.symm)
          · exact Or.inr h
      · rw [if_neg heq]
        simp only [List.map_cons, List.mem_cons]
        rw [keys_degSet_iff k v x es]
        constructor
        · rintro (h | h | h)
          · exact Or.inr (Or.inl h)
          · exact Or.inl h
          · exact Or.inr (Or.inr h)
        · rintro (h | h | h)
          · exact Or.inr (Or.inl h)
          · exact Or.inl h
          · exact Or.inr (Or.inr h)

lemma keys_degAdd_iff (k : NodeId) (d : Int) (x : NodeId) :
    ∀ m : DegMap,
      (x ∈ (degAdd k d m).map Prod.fst ↔ x = k ∨ x ∈ m.map Prod.fst)
  | [] => by
    unfold degAdd
    simp
  | e :: es => by
    unfold degAdd
    by_cases hlt : k < e.1
    · rw [if_pos (strLt_eq_true_of_lt hlt)]
      simp [or_assoc]
    · rw [if_neg (by simp [strLt_eq_false_of_not_lt hlt])]
      by_cases heq : k = e.1
      · rw [if_pos heq]
        simp only [List.map_cons, List.mem_cons]
        constructor
        · rintro (h | h)
          · exact Or.inl h
          · exact Or.inr (Or.inr h)
        · rintro (h | h | h)
          · exact Or.inl h
          · exact Or.inl (h.trans heq.symm)
          · exact Or.inr h
      · rw [if_neg heq]
        simp only [List.map_cons, List.mem_cons]
        rw [keys_degAdd_iff k d x es]
        constructor
        · rintro (h | h | h)
          · exact Or.inr (Or.inl h)
          · exact Or.inl h
          · exact Or.inr (Or.inr h)
        · rintro (h | h | h)
          · exact Or.inr (Or.inl h)
          · exact Or.inl h
          · exact Or.inr (Or.inr h)

lemma degGet_eq_zero_of_not_mem (x : NodeId) :
    ∀ m : DegMap, x ∉ m.map Prod.fst → degGet m x = 0
  | [], _ => rfl
  | e :: es, h => by
    have h1 : e.1 ≠ x := by
      intro he
      exact h (by simp [he])
    rw [degGet_cons_ne e es x h1]
    exact degGet_eq_zero_of_not_mem x es (fun hx => h (by simp [hx]))

lemma keys_nodup_of_degSorted {m : DegMap} (hs : degSorted m) :
    (m.map Prod.fst).Nodup := by
  rw [List.Nodup, List.pairwise_map]
  exact hs.imp (fun h => ne_of_lt h)

lemma degGet_eq_of_mem :
    ∀ m : DegMap, degSorted m → ∀ e ∈ m, degGet m e.1 = e.2
  | [], _, e, he => absurd he (List.not_mem_nil e)
  | e0 :: es, hs, e, he => by
    rcases List.mem_cons.mp he with h1 | h1
    · rw [h1]
      exact degGet_cons_self e0 es e0.1 rfl
    · have hlt : e0.1 < e.1 := mem_keys_degSorted_head hs e h1
      rw [degGet_cons_ne e0 es e.1 (ne_of_lt hlt)]
      exact degGet_eq_of_mem es (degSorted_tail hs) e h1

/-- The in-degree map of `Graph::topologicalSort` after the zero-init loop. -/
def tsDeg0 (g : Graph) : DegMap :=
  g.nodes_.foldl (fun m n => degSet n.id_ 0 m) []

/-- The in-degree map after counting every output edge. -/
def tsDeg1 (g : Graph) : DegMap :=
  g.nodes_.foldl
    (fun m n => n.output_node_ids_.foldl (fun m' o => degAdd o 1 m') m)
    (tsDeg0 g)

/-- The seeded queue: zero-in-degree keys in key order. -/
def tsQueue0 (g : Graph) : List NodeId :=
  ((tsDeg1 g).filter (fun e => e.2 = 0)).map Prod.fst

/-- The levels produced by the while-loop. -/
def tsLevels (g : Graph) : ExecutionLevels :=
  Graph.kahnRounds g ((tsDeg1 g).length + 1) (tsDeg1 g) (tsQueue0 g)

lemma topologicalSort_eq (g : Graph) :
    g.topologicalSort =
      if ((tsLevels g).map List.length).sum = g.nodes_.length
      then tsLevels g else [] := rfl

lemma deg0_fold_spec (ns : List GraphNode) :
    ∀ acc : DegMap, degSorted acc → (∀ x, degGet acc x = 0) →
      degSorted (ns.foldl (fun m n => degSet n.id_ 0 m) acc) ∧
      (∀ x, degGet (ns.foldl (fun m n => degSet n.id_ 0 m) acc) x = 0) ∧
      (∀ x, x ∈ (ns.foldl (fun m n => degSet n.id_ 0 m) acc).map Prod.fst ↔
        x ∈ acc.map Prod.fst ∨ x ∈ ns.map GraphNode.id_) := by
  induction ns with
  | nil =>
    intro acc hs hv
    refine ⟨hs, hv, ?_⟩
    simp
  | cons n ns ih =>
    intro acc hs hv
    rw [List.foldl_cons]
    have hs1 : degSorted (degSet n.id_ 0 acc) := degSorted_degSet n.id_ 0 acc hs
    have hv1 : ∀ x, degGet (degSet n.id_ 0 acc) x = 0 := by
      intro x
      by_cases hx : x = n.id_
      · rw [hx]
        exact degGet_degSet_self n.id_ 0 acc
      · rw [degGet_degSet_ne n.id_ 0 x hx acc]
        exact hv x
    obtain ⟨ha, hb, hc⟩ := ih (degSet n.id_ 0 acc) hs1 hv1
    refine ⟨ha, hb, ?_⟩
    intro x
    rw [hc x, keys_degSet_iff n.id_ 0 x acc]
    simp only [List.map_cons, List.mem_cons]
    constructor
    · rintro ((h | h) | h)
      · exact Or.inr (Or.inl h)
      · exact Or.inl h
      · exact Or.inr (Or.inr h)
    · rintro (h | h | h)
      · exact Or.inl (Or.inr h)
      · exact Or.inl (Or.inl h)
      · exact Or.inr h

lemma degAdd_outs_fold_spec (os : List NodeId) :
    ∀ acc : DegMap, degSorted acc →
      degSorted (os.foldl (fun m' o => degAdd o 1 m') acc) ∧
      (∀ x, degGet (os.foldl (fun m' o => degAdd o 1 m') acc) x =
        degGet acc x + (os.count x : Int)) ∧
      (∀ x, x ∈ (os.foldl (fun m' o => degAdd o 1 m') acc).map Prod.fst ↔
        x ∈ acc.map Prod.fst ∨ x ∈ os) := by
  induction os with
  | nil =>
    intro acc hs
    refine ⟨hs, ?_, ?_⟩
    · intro x
      simp
    · intro x
      simp
  | cons o os ih =>
    intro acc hs
    rw [List.foldl_cons]
    obtain ⟨ha, hb, hc⟩ := ih (degAdd o 1 acc) (degSorted_degAdd o 1 acc hs)
    refine ⟨ha, ?_, ?_⟩
    · intro x
      rw [hb x]
      by_cases hx : x = o
      · subst hx
        rw [degGet_degAdd_self x 1 acc hs]
        simp [List.count_cons]
        ring
      · rw [degGet_degAdd_ne o 1 x hx acc, List.count_cons]
        have hbe : (o == x) = false := beq_eq_false_iff_ne.mpr (fun h => hx h.symm)
        rw [hbe]
        simp
    · intro x
      rw [hc x, keys_degAdd_iff o 1 x acc]
      simp only [List.mem_cons]
      constructor
      · rintro ((h | h) | h)
        · exact Or.inr (Or.inl h)
        · exact Or.inl h
        · exact Or.inr (Or.inr h)
      · rintro (h | h | h)
        · exact Or.inl (Or.inr h)
        · exact Or.inl (Or.inl h)
        · exact Or.inr h

lemma deg1_fold_spec (ns : List GraphNode) :
    ∀ acc : DegMap, degSorted acc →
      degSorted (ns.foldl
        (fun m n => n.output_node_ids_.foldl (fun m' o => degAdd o 1 m') m) acc) ∧
      (∀ x, degGet (ns.foldl
          (fun m n => n.output_node_ids_.foldl (fun m' o => degAdd o 1 m') m) acc) x =
        degGet acc x + (ns.map (fun n => (n.output_node_ids_.count x : Int))).sum) ∧
      (∀ x, x ∈ (ns.foldl
          (fun m n => n.output_node_ids_.foldl (fun m' o => degAdd o 1 m') m)
          acc).map Prod.fst ↔
        x ∈ acc.map Prod.fst ∨ ∃ n ∈ ns, x ∈ n.output_node_ids_) := by
  induction ns with
  | nil =>
    intro acc hs
    refine ⟨hs, ?_, ?_⟩
    · intro x
      simp
    · intro x
      simp
  | cons n ns ih =>
    intro acc hs
    rw [List.foldl_cons]
    obtain ⟨ia, ib, ic⟩ := degAdd_outs_fold_spec n.output_node_ids_ acc hs
    obtain ⟨ha, hb, hc⟩ := ih _ ia
    refine ⟨ha, ?_, ?_⟩
    · intro x
      rw [hb x, ib x, List.map_cons, List.sum_cons]
      ring
    · intro x
      rw [hc x, ic x]
      constructor
      · rintro ((h | h) | h)
        · exact Or.inl h
        · exact Or.inr ⟨n, List.mem_cons_self n ns, h⟩
        · obtain ⟨n', hn', hx⟩ := h
          exact Or.inr ⟨n', List.mem_cons_of_mem n hn', hx⟩
      · rintro (h | h)
        · exact Or.inl (Or.inl h)
        · obtain ⟨n', hn', hx⟩ := h
          rcases List.mem_cons.mp hn' with h1 | h1
          · exact Or.inl (Or.inr (h1 ▸ hx))
          · exact Or.inr ⟨n', h1, hx⟩

lemma int_sum_map_cast (f : GraphNode → Nat) (l : List GraphNode) :
    (l.map (fun n => (f n : Int))).sum = ((l.map f).sum : Int) := by
  induction l with
  | nil => rfl
  | cons a l ih =>
    rw [List.map_cons, List.sum_cons, List.map_cons, List.sum_cons, ih]
    omega

lemma inDeg0_eq_zero_of_not_mem (g : Graph)
    (hvalid : ∀ n ∈ g.nodes_, ∀ o ∈ n.output_node_ids_, o ∈ idsOf g)
    (x : NodeId) (hx : x ∉ idsOf g) : inDeg0 g x = 0 := by
  unfold inDeg0
  rw [List.sum_eq_zero]
  intro c hc
  obtain ⟨n, hn, hcn⟩ := List.mem_map.mp hc
  rw [← hcn]
  rw [List.count_eq_zero]
  exact fun hmem => hx (hvalid n hn x hmem)

lemma tsDeg1_spec (g : Graph) :
    degSorted (tsDeg1 g) ∧
    (∀ x, degGet (tsDeg1 g) x = (inDeg0 g x : Int)) ∧
    (∀ x, x ∈ (tsDeg1 g).map Prod.fst ↔
      x ∈ idsOf g ∨ ∃ n ∈ g.nodes_, x ∈ n.output_node_ids_) := by
  obtain ⟨h0a, h0b, h0c⟩ :=
    deg0_fold_spec g.nodes_ [] List.Pairwise.nil (fun _ => rfl)
  have h0a' : degSorted (tsDeg0 g) := h0a
  have h0b' : ∀ x, degGet (tsDeg0 g) x = 0 := h0b
  have h0c' : ∀ x, x ∈ (tsDeg0 g).map Prod.fst ↔
      x ∈ ([] : DegMap).map Prod.fst ∨ x ∈ g.nodes_.map GraphNode.id_ := h0c
  obtain ⟨h1a, h1b, h1c⟩ := deg1_fold_spec g.nodes_ (tsDeg0 g) h0a'
  refine ⟨h1a, ?_, ?_⟩
  · intro x
    rw [tsDeg1, h1b x, h0b' x, int_sum_map_cast]
    unfold inDeg0
    simp
  · intro x
    rw [tsDeg1, h1c x, h0c' x]
    simp [idsOf]

lemma mem_tsQueue0_iff (g : Graph) (x : NodeId) :
    x ∈ tsQueue0 g ↔
      x ∈ (tsDeg1 g).map Prod.fst ∧ degGet (tsDeg1 g) x = 0 := by
  have hs := (tsDeg1_spec g).1
  unfold tsQueue0
  constructor
  · intro h
    obtain ⟨e, he, hex⟩ := List.mem_map.mp h
    obtain ⟨he1, he2⟩ := List.mem_filter.mp he
    refine ⟨hex ▸ List.mem_map_of_mem Prod.fst he1, ?_⟩
    rw [← hex, degGet_eq_of_mem (tsDeg1 g) hs e he1]
    simpa using he2
  · rintro ⟨h1, h2⟩
    obtain ⟨e, he, hex⟩ := List.mem_map.mp h1
    have : degGet (tsDeg1 g) e.1 = e.2 := degGet_eq_of_mem (tsDeg1 g) hs e he
    rw [hex] at this
    rw [h2] at this
    refine List.mem_map.mpr ⟨e, List.mem_filter.mpr ⟨he, by simp [← this]⟩, hex⟩

lemma tsQueue0_nodup (g : Graph) : (tsQueue0 g).Nodup := by
  have hs := (tsDeg1_spec g).1
  have hsub : List.Sublist (((tsDeg1 g).filter (fun e => e.2 = 0)).map Prod.fst)
      ((tsDeg1 g).map Prod.fst) :=
    (List.filter_sublist _).map Prod.fst
  exact (keys_nodup_of_degSorted hs).sublist hsub

lemma sum_count_filter_or (f : GraphNode → Nat) (b c : GraphNode → Bool) :
    ∀ l : List GraphNode, (∀ n ∈ l, ¬ (b n = true ∧ c n = true)) →
      ((l.filter (fun n => b n || c n)).map f).sum =
        ((l.filter b).map f).sum + ((l.filter c).map f).sum := by
  intro l
  induction l with
  | nil => intro _; rfl
  | cons n ns ih =>
    intro hdis
    have ih' := ih (fun m hm => hdis m (List.mem_cons_of_mem n hm))
    by_cases hb : b n = true
    · have hc : c n = false :=
        Bool.eq_false_iff.mpr (fun hct => hdis n (List.mem_cons_self n ns) ⟨hb, hct⟩)
      rw [List.filter_cons_of_pos (by simp [hb]), List.filter_cons_of_pos hb,
        List.filter_cons_of_neg (by simp [hc])]
      simp only [List.map_cons, List.sum_cons]
      rw [ih']
      ring
    · have hb' : b n = false := Bool.eq_false_iff.mpr hb
      by_cases hc : c n = true
      · rw [List.filter_cons_of_pos (by simp [hc]),
          List.filter_cons_of_neg (by simp [hb']),
          List.filter_cons_of_pos hc]
        simp only [List.map_cons, List.sum_cons]
        rw [ih']
        ring
      · have hc' : c n = false := Bool.eq_false_iff.mpr hc
        rw [List.filter_cons_of_neg (by simp [hb', hc']),
          List.filter_cons_of_neg (by simp [hb']),
          List.filter_cons_of_neg (by simp [hc'])]
        exact ih'

lemma sum_map_filter_split (f : GraphNode → Nat) (b : GraphNode → Bool) :
    ∀ l : List GraphNode,
      ((l.filter b).map f).sum + ((l.filter (fun n => !(b n))).map f).sum =
        (l.map f).sum := by
  intro l
  induction l with
  | nil => rfl
  | cons n ns ih =>
    by_cases hb : b n = true
    · rw [List.filter_cons_of_pos hb, List.filter_cons_of_neg (by simp [hb])]
      simp only [List.map_cons, List.sum_cons]
      rw [← ih]
      ring
    · have hb' : b n = false := Bool.eq_false_iff.mpr hb
      rw [List.filter_cons_of_neg (by simp [hb']),
        List.filter_cons_of_pos (by simp [hb'])]
      simp only [List.map_cons, List.sum_cons]
      rw [← ih]
      ring

lemma sum_filter_id_eq_list (x p : NodeId) :
    ∀ l : List GraphNode, (l.map GraphNode.id_).Nodup →
      ((l.filter (fun n => n.id_ = p)).map
        (fun n => n.output_node_ids_.count x)).sum =
      (match l.find? (fun n => n.id_ = p) with
       | some n => n.output_node_ids_.count x
       | none => 0) := by
  intro l
  induction l with
  | nil => intro _; rfl
  | cons n ns ih =>
    intro hnd
    rw [List.map_cons, List.nodup_cons] at hnd
    by_cases hp : n.id_ = p
    · rw [List.filter_cons_of_pos (by simp [hp]),
        List.find?_cons_of_pos _ (by simp [hp])]
      have hrest : ns.filter (fun n => decide (n.id_ = p)) = [] := by
        rw [List.filter_eq_nil_iff]
        intro m hm
        simp only [decide_eq_true_eq]
        intro hmp
        exact hnd.1 (by
          rw [hp, ← hmp]
          exact List.mem_map_of_mem GraphNode.id_ hm)
      rw [hrest]
      simp
    · rw [List.filter_cons_of_neg (by simp [hp]),
        List.find?_cons_of_neg _ (by simp [hp])]
      exact ih hnd.2

lemma decSum_eq_sum_filter (g : Graph) (hk : (idsOf g).Nodup) :
    ∀ P : List NodeId, P.Nodup → ∀ x,
      decSum g P x =
        ((g.nodes_.filter (fun n => n.id_ ∈ P)).map
          (fun n => n.output_node_ids_.count x)).sum := by
  intro P
  induction P with
  | nil =>
    intro _ x
    have hnil : g.nodes_.filter (fun n => decide (n.id_ ∈ ([] : List NodeId))) = [] := by
      rw [List.filter_eq_nil_iff]
      intro m _
      simp
    rw [decSum]
    simp [hnil]
  | cons p P' ih =>
    intro hnd x
    rw [List.nodup_cons] at hnd
    have hsplit : g.nodes_.filter (fun n => decide (n.id_ ∈ p :: P')) =
        g.nodes_.filter (fun n => decide (n.id_ = p) || decide (n.id_ ∈ P')) := by
      apply List.filter_congr
      intro n _
      simp [List.mem_cons]
    rw [hsplit, sum_count_filter_or _ _ _ g.nodes_ (by
      intro n _ hand
      simp only [decide_eq_true_eq] at hand
      exact hnd.1 (hand.1 ▸ hand.2))]
    have hfirst : ((g.nodes_.filter (fun n => decide (n.id_ = p))).map
        (fun n => n.output_node_ids_.count x)).sum = (outsOf g p).count x := by
      rw [sum_filter_id_eq_list x p g.nodes_ hk]
      unfold outsOf Graph.getNode
      cases g.nodes_.find? (fun n => n.id_ = p) with
      | none => rfl
      | some n => rfl
    rw [decSum, List.map_cons, List.sum_cons, hfirst, ← ih hnd.2 x]
    rfl

lemma decSum_le_inDeg0 (g : Graph) (hk : (idsOf g).Nodup)
    (P : List NodeId) (hP : P.Nodup) (x : NodeId) :
    decSum g P x ≤ inDeg0 g x := by
  rw [decSum_eq_sum_filter g hk P hP x]
  unfold inDeg0
  have := sum_map_filter_split (fun n => n.output_node_ids_.count x)
    (fun n => decide (n.id_ ∈ P)) g.nodes_
  omega

lemma in_neighbors_popped (g : Graph) (hk : (idsOf g).Nodup)
    (P : List NodeId) (hP : P.Nodup) (x : NodeId)
    (heq : decSum g P x = inDeg0 g x) :
    ∀ n ∈ g.nodes_, x ∈ n.output_node_ids_ → n.id_ ∈ P := by
  rw [decSum_eq_sum_filter g hk P hP x] at heq
  have hsplit := sum_map_filter_split (fun n => n.output_node_ids_.count x)
    (fun n => decide (n.id_ ∈ P)) g.nodes_
  unfold inDeg0 at heq
  have hzero : (((g.nodes_.filter (fun n => !(decide (n.id_ ∈ P)))).map
      (fun n => n.output_node_ids_.count x)).sum) = 0 := by omega
  intro n hn hx
  by_contra hnot
  have hmemf : n ∈ g.nodes_.filter (fun n => !(decide (n.id_ ∈ P))) :=
    List.mem_filter.mpr ⟨hn, by simp [hnot]⟩
  have hc : n.output_node_ids_.count x = 0 :=
    List.sum_eq_zero_iff.mp hzero _ (List.mem_map_of_mem _ hmemf)
  rw [List.count_eq_zero] at hc
  exact hc hx

lemma kahnOuts_fold_spec (os : List NodeId) :
    ∀ (deg : DegMap) (acc : List NodeId), degSorted deg →
      degSorted (os.foldl
        (fun (st : DegMap × List NodeId) o =>
          let deg' := degAdd o (-1) st.1
          if degGet deg' o = 0 then (deg', st.2 ++ [o]) else (deg', st.2))
        (deg, acc)).1 ∧
      (∀ x, degGet (os.foldl
          (fun (st : DegMap × List NodeId) o =>
            let deg' := degAdd o (-1) st.1
            if degGet deg' o = 0 then (deg', st.2 ++ [o]) else (deg', st.2))
          (deg, acc)).1 x = degGet deg x - (os.count x : Int)) ∧
      (∀ x, (os.foldl
          (fun (st : DegMap × List NodeId) o =>
            let deg' := degAdd o (-1) st.1
            if degGet deg' o = 0 then (deg', st.2 ++ [o]) else (deg', st.2))
          (deg, acc)).2.count x = acc.count x +
        (if 1 ≤ degGet deg x ∧ degGet deg x ≤ (os.count x : Int)
         then 1 else 0)) := by
  induction os with
  | nil =>
    intro deg acc hs
    refine ⟨hs, ?_, ?_⟩
    · intro x
      simp
    · intro x
      have hcond : ¬ (1 ≤ degGet deg x ∧ degGet deg x ≤ ((List.count x []
          : Nat) : Int)) := by
        simp only [List.count_nil, Nat.cast_zero]
        omega
      rw [if_neg hcond]
      simp
  | cons o os ih =>
    intro deg acc hs
    rw [List.foldl_cons]
    have hds : degSorted (degAdd o (-1) deg) := degSorted_degAdd o (-1) deg hs
    have hvo : degGet (degAdd o (-1) deg) o = degGet deg o - 1 := by
      rw [degGet_degAdd_self o (-1) deg hs]
      ring
    have hvne : ∀ x, x ≠ o → degGet (degAdd o (-1) deg) x = degGet deg x :=
      fun x hx => degGet_degAdd_ne o (-1) x hx deg
    by_cases hc : degGet (degAdd o (-1) deg) o = 0
    · rw [if_pos hc]
      rw [hvo] at hc
      obtain ⟨ia, ib, ic⟩ := ih (degAdd o (-1) deg) (acc ++ [o]) hds
      refine ⟨ia, ?_, ?_⟩
      · intro x
        rw [ib x, List.count_cons]
        by_cases hx : x = o
        · subst hx
          rw [hvo]
          simp only [beq_self_eq_true, if_true]
          omega
        · rw [hvne x hx, beq_eq_false_iff_ne.mpr (fun h => hx h.symm)]
          simp only [Bool.false_eq_true, if_false]
          omega
      · intro x
        rw [ic x, List.count_append, List.count_cons, List.count_cons,
          List.count_nil]
        by_cases hx : x = o
        · subst hx
          rw [hvo]
          simp only [beq_self_eq_true, if_true]
          have hnn : (0 : Int) ≤ (os.count x : Int) := Int.natCast_nonneg _
          split_ifs <;> omega
        · rw [hvne x hx, beq_eq_false_iff_ne.mpr (fun h => hx h.symm)]
          simp only [Bool.false_eq_true, if_false]
          split_ifs <;> omega
    · rw [if_neg hc]
      rw [hvo] at hc
      obtain ⟨ia, ib, ic⟩ := ih (degAdd o (-1) deg) acc hds
      refine ⟨ia, ?_, ?_⟩
      · intro x
        rw [ib x, List.count_cons]
        by_cases hx : x = o
        · subst hx
          rw [hvo]
          simp only [beq_self_eq_true, if_true]
          omega
        · rw [hvne x hx, beq_eq_false_iff_ne.mpr (fun h => hx h.symm)]
          simp only [Bool.false_eq_true, if_false]
          omega
      · intro x
        rw [ic x, List.count_cons]
        by_cases hx : x = o
        · subst hx
          rw [hvo]
          simp only [beq_self_eq_true, if_true]
          have hnn : (0 : Int) ≤ (os.count x : Int) := Int.natCast_nonneg _
          split_ifs <;> omega
        · rw [hvne x hx, beq_eq_false_iff_ne.mpr (fun h => hx h.symm)]
          simp only [Bool.false_eq_true, if_false]
          split_ifs <;> omega

lemma kahnVisit_spec (g : Graph) (deg : DegMap) (acc : List NodeId)
    (p : NodeId) (hs : degSorted deg) :
    degSorted (Graph.kahnVisit g (deg, acc) p).1 ∧
    (∀ x, degGet (Graph.kahnVisit g (deg, acc) p).1 x =
      degGet deg x - ((outsOf g p).count x : Int)) ∧
    (∀ x, (Graph.kahnVisit g (deg, acc) p).2.count x = acc.count x +
      (if 1 ≤ degGet deg x ∧ degGet deg x ≤ ((outsOf g p).count x : Int)
       then 1 else 0)) := by
  unfold Graph.kahnVisit outsOf
  cases hg : g.getNode p with
  | none =>
    refine ⟨hs, ?_, ?_⟩
    · intro x
      simp
    · intro x
      rw [if_neg (by
        simp only [List.count_nil, Nat.cast_zero]
        omega)]
      simp
  | some n => exact kahnOuts_fold_spec n.output_node_ids_ deg acc hs

lemma decSum_cons (g : Graph) (p : NodeId) (P : List NodeId) (x : NodeId) :
    decSum g (p :: P) x = (outsOf g p).count x + decSum g P x := by
  unfold decSum
  rw [List.map_cons, List.sum_cons]

lemma decSum_append (g : Graph) (P Q : List NodeId) (x : NodeId) :
    decSum g (P ++ Q) x = decSum g P x + decSum g Q x := by
  unfold decSum
  rw [List.map_append, List.sum_append]

lemma kahnLevel_fold_spec (g : Graph) (L : List NodeId) :
    ∀ (deg : DegMap) (acc : List NodeId), degSorted deg →
      degSorted (L.foldl (Graph.kahnVisit g) (deg, acc)).1 ∧
      (∀ x, degGet (L.foldl (Graph.kahnVisit g) (deg, acc)).1 x =
        degGet deg x - (decSum g L x : Int)) ∧
      (∀ x, (L.foldl (Graph.kahnVisit g) (deg, acc)).2.count x =
        acc.count x +
        (if degGet deg x - (decSum g L x : Int) ≤ 0 ∧ 1 ≤ degGet deg x
         then 1 else 0)) := by
  induction L with
  | nil =>
    intro deg acc hs
    refine ⟨hs, ?_, ?_⟩
    · intro x
      simp [decSum]
    · intro x
      rw [if_neg (by
        unfold decSum
        simp only [List.map_nil, List.sum_nil, Nat.cast_zero]
        omega)]
      simp
  | cons p L ih =>
    intro deg acc hs
    rw [List.foldl_cons]
    obtain ⟨va, vb, vc⟩ := kahnVisit_spec g deg acc p hs
    rcases hst : Graph.kahnVisit g (deg, acc) p with ⟨deg1, acc1⟩
    rw [hst] at va vb vc
    obtain ⟨ia, ib, ic⟩ := ih deg1 acc1 va
    refine ⟨ia, ?_, ?_⟩
    · intro x
      rw [ib x, vb x, decSum_cons]
      push_cast
      ring
    · intro x
      rw [ic x, vc x, vb x, decSum_cons]
      have hnn1 : (0 : Int) ≤ ((outsOf g p).count x : Int) := Int.natCast_nonneg _
      have hnn2 : (0 : Int) ≤ (decSum g L x : Int) := Int.natCast_nonneg _
      push_cast
      split_ifs <;> omega

lemma exists_unpopped_in_neighbor (g : Graph) (hk : (idsOf g).Nodup)
    (P : List NodeId) (hP : P.Nodup) (y : NodeId)
    (hlt : decSum g P y < inDeg0 g y) :
    ∃ n ∈ g.nodes_, y ∈ n.output_node_ids_ ∧ n.id_ ∉ P := by
  rw [decSum_eq_sum_filter g hk P hP y] at hlt
  have hsplit := sum_map_filter_split (fun n => n.output_node_ids_.count y)
    (fun n => decide (n.id_ ∈ P)) g.nodes_
  unfold inDeg0 at hlt
  have hpos2 : 0 < (((g.nodes_.filter (fun n => !(decide (n.id_ ∈ P)))).map
      (fun n => n.output_node_ids_.count y)).sum) := by omega
  by_contra hcon
  push_neg at hcon
  have hzero : (((g.nodes_.filter (fun n => !(decide (n.id_ ∈ P)))).map
      (fun n => n.output_node_ids_.count y)).sum) = 0 := by
    rw [List.sum_eq_zero]
    intro c hc
    obtain ⟨n, hn, hcn⟩ := List.mem_map.mp hc
    obtain ⟨hn1, hn2⟩ := List.mem_filter.mp hn
    simp only [Bool.not_eq_true', decide_eq_false_iff_not] at hn2
    rw [← hcn, List.count_eq_zero]
    intro hmem
    exact hn2 (hcon n hn1 hmem)
  omega

lemma transGen_iterate (g : Graph) (u : Nat → NodeId)
    (hstep : ∀ n, gEdge g (u (n + 1)) (u n)) :
    ∀ d n, Relation.TransGen (gEdge g) (u (n + d + 1)) (u n) := by
  intro d
  induction d with
  | zero => intro n; exact Relation.TransGen.single (hstep n)
  | succ d ih =>
    intro n
    exact Relation.TransGen.head (hstep (n + d + 1)) (ih n)

lemma cycle_of_all_have_pred (g : Graph) (T : List NodeId) (hT : T ≠ [])
    (hpred : ∀ x ∈ T, ∃ y ∈ T, gEdge g y x) : hasCycle g := by
  classical
  obtain ⟨t0, ht0⟩ := List.exists_mem_of_ne_nil T hT
  have hstep : ∀ x, ∃ y, (x ∈ T → (y ∈ T ∧ gEdge g y x)) := by
    intro x
    by_cases hx : x ∈ T
    · obtain ⟨y, hy, he⟩ := hpred x hx
      exact ⟨y, fun _ => ⟨hy, he⟩⟩
    · exact ⟨x, fun h => absurd h hx⟩
  choose F hF using hstep
  let u : Nat → NodeId := fun n => F^[n] t0
  have hu : ∀ n, u n ∈ T := by
    intro n
    induction n with
    | zero => exact ht0
    | succ n ih =>
      have : u (n + 1) = F (u n) := Function.iterate_succ_apply' F n t0
      rw [this]
      exact (hF (u n) ih).1
  have hedge : ∀ n, gEdge g (u (n + 1)) (u n) := by
    intro n
    have : u (n + 1) = F (u n) := Function.iterate_succ_apply' F n t0
    rw [this]
    exact (hF (u n) (hu n)).2
  -- pigeonhole over the finite vertex pool
  have hmaps : ∀ i ∈ Finset.range (T.toFinset.card + 1), u i ∈ T.toFinset := by
    intro i _
    exact List.mem_toFinset.mpr (hu i)
  have hcard : T.toFinset.card < (Finset.range (T.toFinset.card + 1)).card := by
    rw [Finset.card_range]
    omega
  obtain ⟨i, hi, j, hj, hij, huv⟩ :=
    Finset.exists_ne_map_eq_of_card_lt_of_maps_to hcard hmaps
  rcases lt_or_gt_of_ne hij with hlt | hlt
  · obtain ⟨d, hd⟩ : ∃ d, j = i + d + 1 := ⟨j - i - 1, by omega⟩
    refine ⟨u j, ?_⟩
    have := transGen_iterate g u hedge d i
    rw [← hd, huv] at this
    exact this
  · obtain ⟨d, hd⟩ : ∃ d, i = j + d + 1 := ⟨i - j - 1, by omega⟩
    refine ⟨u i, ?_⟩
    have := transGen_iterate g u hedge d j
    rw [← hd, ← huv] at this
    exact this

lemma length_filter_mono_pred {α : Type} (p q : α → Bool)
    (himp : ∀ a, q a = true → p a = true) :
    ∀ l : List α, (l.filter q).length ≤ (l.filter p).length := by
  intro l
  induction l with
  | nil => exact Nat.le_refl 0
  | cons a l ih =>
    by_cases hq : q a = true
    · rw [List.filter_cons_of_pos hq, List.filter_cons_of_pos (himp a hq)]
      simpa using ih
    · rw [List.filter_cons_of_neg (by simp [Bool.eq_false_iff.mpr hq])]
      by_cases hp : p a = true
      · rw [List.filter_cons_of_pos hp]
        exact Nat.le_succ_of_le ih
      · rw [List.filter_cons_of_neg (by simp [Bool.eq_false_iff.mpr hp])]
        exact ih

lemma length_filter_lt_of_witness {α : Type} (p q : α → Bool)
    (himp : ∀ a, q a = true → p a = true) (x0 : α) :
    ∀ l : List α, x0 ∈ l → p x0 = true → q x0 = false →
      (l.filter q).length < (l.filter p).length := by
  intro l
  induction l with
  | nil => intro h; exact absurd h (List.not_mem_nil x0)
  | cons a l ih =>
    intro hmem hp0 hq0
    rcases List.mem_cons.mp hmem with heq | hmem'
    · subst heq
      rw [List.filter_cons_of_pos hp0, List.filter_cons_of_neg (by simp [hq0])]
      have := length_filter_mono_pred p q himp l
      simp only [List.length_cons]
      omega
    · by_cases hq : q a = true
      · rw [List.filter_cons_of_pos hq, List.filter_cons_of_pos (himp a hq)]
        simp only [List.length_cons]
        have := ih hmem' hp0 hq0
        omega
      · rw [List.filter_cons_of_neg (by simp [Bool.eq_false_iff.mpr hq])]
        by_cases hp : p a = true
        · rw [List.filter_cons_of_pos hp]
          have := ih hmem' hp0 hq0
          simp only [List.length_cons]
          omega
        · rw [List.filter_cons_of_neg (by simp [Bool.eq_false_iff.mpr hp])]
          exact ih hmem' hp0 hq0

lemma kahnRounds_spec (g : Graph) (hk : (idsOf g).Nodup)
    (hvalid : ∀ n ∈ g.nodes_, ∀ o ∈ n.output_node_ids_, o ∈ idsOf g) :
    ∀ (fuel : Nat) (deg : DegMap) (queue emitted : List NodeId),
      degSorted deg →
      (∀ x, degGet deg x = (inDeg0 g x : Int) - (decSum g emitted x : Int)) →
      (∀ x ∈ emitted ++ queue, x ∈ idsOf g) →
      (emitted ++ queue).Nodup →
      (∀ x ∈ emitted ++ queue, degGet deg x = 0) →
      (∀ x ∈ idsOf g, x ∉ emitted ++ queue → 1 ≤ degGet deg x) →
      ((idsOf g).filter (fun x => !(decide (x ∈ emitted)))).length < fuel →
      (emitted ++ (Graph.kahnRounds g fuel deg queue).flatten).Nodup ∧
      (∀ x ∈ (Graph.kahnRounds g fuel deg queue).flatten, x ∈ idsOf g) ∧
      (¬ hasCycle g → ∀ x ∈ idsOf g,
        x ∈ emitted ∨ x ∈ (Graph.kahnRounds g fuel deg queue).flatten) ∧
      (∀ j b, b ∈ ((Graph.kahnRounds g fuel deg queue).getD j []) →
        ∀ a, gEdge g a b →
          a ∈ emitted ++ (((Graph.kahnRounds g fuel deg queue).take j).flatten)) := by
  intro fuel
  induction fuel with
  | zero =>
    intro deg queue emitted _ _ _ _ _ _ hfuel
    omega
  | succ fuel ih =>
    intro deg queue emitted hs hvals hmem hnd hzero hpos hfuel
    have hemitnd : emitted.Nodup := (List.nodup_append.mp hnd).1
    by_cases hq : queue.isEmpty = true
    · -- the while loop stops: no level is produced
      have hqe : queue = [] := List.isEmpty_iff.mp hq
      subst hqe
      have hrw : Graph.kahnRounds g (fuel + 1) deg [] = [] := by
        rw [Graph.kahnRounds]
        rfl
      rw [hrw]
      refine ⟨by simpa using hnd, by simp, ?_, by simp⟩
      intro hnc x hx
      simp only [List.flatten_nil, List.not_mem_nil, or_false]
      by_contra hcon
      -- the unemitted ids form a set in which everyone has an unemitted
      -- in-neighbor: that yields a cycle
      have hcyc : hasCycle g := by
        apply cycle_of_all_have_pred g
          ((idsOf g).filter (fun y => !(decide (y ∈ emitted))))
        · exact List.ne_nil_of_mem
            (List.mem_filter.mpr ⟨hx, by simp [hcon]⟩)
        · intro z hz
          obtain ⟨hz1, hz2⟩ := List.mem_filter.mp hz
          simp only [Bool.not_eq_true', decide_eq_false_iff_not] at hz2
          have hz3 : 1 ≤ degGet deg z := hpos z hz1 (by simpa using hz2)
          have hz4 := hvals z
          have hle := decSum_le_inDeg0 g hk emitted hemitnd z
          have hlt : decSum g emitted z < inDeg0 g z := by omega
          obtain ⟨n, hn, hny, hnid⟩ :=
            exists_unpopped_in_neighbor g hk emitted hemitnd z hlt
          refine ⟨n.id_, List.mem_filter.mpr ⟨List.mem_map_of_mem GraphNode.id_ hn,
            by simp [hnid]⟩, n, hn, rfl, hny⟩
      exact hnc hcyc
    · -- one more level: the whole queue is drained as a batch
      have hqne : queue ≠ [] := fun h => hq (by simp [h])
      have hrw : Graph.kahnRounds g (fuel + 1) deg queue =
          queue :: Graph.kahnRounds g fuel
            (queue.foldl (Graph.kahnVisit g) (deg, [])).1
            (queue.foldl (Graph.kahnVisit g) (deg, [])).2 := by
        rw [Graph.kahnRounds]
        rw [if_neg (by simp [hq])]
      obtain ⟨la, lb, lc⟩ := kahnLevel_fold_spec g queue deg [] hs
      -- abbreviations for the new state
      have hdisj : emitted.Disjoint queue := (List.nodup_append.mp hnd).2.2
      have hndq : queue.Nodup := (List.nodup_append.mp hnd).2.1
      have hnd' : (emitted ++ queue).Nodup := hnd
      -- values after the round
      have hvals' : ∀ x, degGet (queue.foldl (Graph.kahnVisit g) (deg, [])).1 x =
          (inDeg0 g x : Int) - (decSum g (emitted ++ queue) x : Int) := by
        intro x
        rw [lb x, hvals x, decSum_append]
        push_cast
        ring
      have hnonneg' : ∀ x, 0 ≤ degGet (queue.foldl (Graph.kahnVisit g) (deg, [])).1 x := by
        intro x
        rw [hvals' x]
        have := decSum_le_inDeg0 g hk (emitted ++ queue) hnd' x
        omega
      -- push characterization
      have hcnt : ∀ x, (queue.foldl (Graph.kahnVisit g) (deg, [])).2.count x =
          (if degGet deg x - (decSum g queue x : Int) ≤ 0 ∧ 1 ≤ degGet deg x
           then 1 else 0) := by
        intro x
        rw [lc x]
        simp
      have hpushmem : ∀ x ∈ (queue.foldl (Graph.kahnVisit g) (deg, [])).2,
          (degGet deg x - (decSum g queue x : Int) ≤ 0 ∧ 1 ≤ degGet deg x) := by
        intro x hxp
        have h1 : 0 < (queue.foldl (Graph.kahnVisit g) (deg, [])).2.count x :=
          List.count_pos_iff.mpr hxp
        rw [hcnt x] at h1
        by_contra hcon
        rw [if_neg hcon] at h1
        omega
      have hpushnotold : ∀ x ∈ (queue.foldl (Graph.kahnVisit g) (deg, [])).2,
          x ∉ emitted ++ queue := by
        intro x hxp hxold
        have := (hpushmem x hxp).2
        have := hzero x hxold
        omega
      have hpushids : ∀ x ∈ (queue.foldl (Graph.kahnVisit g) (deg, [])).2,
          x ∈ idsOf g := by
        intro x hxp
        by_contra hxids
        have h1 := (hpushmem x hxp).2
        have h2 := hvals x
        have h3 : inDeg0 g x = 0 := inDeg0_eq_zero_of_not_mem g hvalid x hxids
        have h4 : (0 : Int) ≤ (decSum g emitted x : Int) := Int.natCast_nonneg _
        omega
      have hmem' : ∀ x ∈ (emitted ++ queue) ++
          (queue.foldl (Graph.kahnVisit g) (deg, [])).2, x ∈ idsOf g := by
        intro x hx
        rcases List.mem_append.mp hx with h | h
        · exact hmem x h
        · exact hpushids x h
      have hndpush : ((queue.foldl (Graph.kahnVisit g) (deg, [])).2).Nodup := by
        rw [List.nodup_iff_count_le_one]
        intro x
        rw [hcnt x]
        split_ifs <;> omega
      have hnd2 : ((emitted ++ queue) ++
          (queue.foldl (Graph.kahnVisit g) (deg, [])).2).Nodup := by
        rw [List.nodup_append]
        exact ⟨hnd', hndpush, fun x hx1 hx2 => hpushnotold x hx2 hx1⟩
      have hzero' : ∀ x ∈ (emitted ++ queue) ++
          (queue.foldl (Graph.kahnVisit g) (deg, [])).2,
          degGet (queue.foldl (Graph.kahnVisit g) (deg, [])).1 x = 0 := by
        intro x hx
        have hn0 := hnonneg' x
        rcases List.mem_append.mp hx with h | h
        · have h1 := hzero x h
          have h2 := lb x
          have h3 : (0 : Int) ≤ (decSum g queue x : Int) := Int.natCast_nonneg _
          omega
        · have h1 := hpushmem x h
          have h2 := lb x
          omega
      have hpos' : ∀ x ∈ idsOf g, x ∉ (emitted ++ queue) ++
          (queue.foldl (Graph.kahnVisit g) (deg, [])).2 →
          1 ≤ degGet (queue.foldl (Graph.kahnVisit g) (deg, [])).1 x := by
        intro x hxids hxnot
        have hxnotold : x ∉ emitted ++ queue :=
          fun h => hxnot (List.mem_append.mpr (Or.inl h))
        have hxnotpush : x ∉ (queue.foldl (Graph.kahnVisit g) (deg, [])).2 :=
          fun h => hxnot (List.mem_append.mpr (Or.inr h))
        have h1 := hpos x hxids hxnotold
        have hn0 := hnonneg' x
        have h2 := lb x
        by_contra hcon
        push_neg at hcon
        have hdeg0 : degGet (queue.foldl (Graph.kahnVisit g) (deg, [])).1 x = 0 := by
          omega
        have hcond : degGet deg x - (decSum g queue x : Int) ≤ 0 ∧
            1 ≤ degGet deg x := by
          constructor
          · omega
          · exact h1
        have : (queue.foldl (Graph.kahnVisit g) (deg, [])).2.count x = 1 := by
          rw [hcnt x, if_pos hcond]
        exact hxnotpush (List.count_pos_iff.mp (by omega))
      have hfuel' : ((idsOf g).filter
          (fun x => !(decide (x ∈ emitted ++ queue)))).length < fuel := by
        obtain ⟨x0, hx0⟩ := List.exists_mem_of_ne_nil queue hqne
        have hx0ids : x0 ∈ idsOf g :=
          hmem x0 (List.mem_append.mpr (Or.inr hx0))
        have hx0notem : x0 ∉ emitted := fun h => hdisj h hx0
        have hlt := length_filter_lt_of_witness
          (fun x => !(decide (x ∈ emitted)))
          (fun x => !(decide (x ∈ emitted ++ queue)))
          (by
            intro a ha
            simp only [Bool.not_eq_true', decide_eq_false_iff_not] at ha ⊢
            exact fun hmem0 => ha (List.mem_append.mpr (Or.inl hmem0)))
          x0 (idsOf g) hx0ids
          (by simp [hx0notem])
          (by simp [List.mem_append.mpr (Or.inr hx0)])
        omega
      obtain ⟨Ia, Ib, Ic, Id⟩ := ih
        (queue.foldl (Graph.kahnVisit g) (deg, [])).1
        (queue.foldl (Graph.kahnVisit g) (deg, [])).2
        (emitted ++ queue) la hvals' hmem' hnd2 hzero' hpos' hfuel'
      rw [hrw]
      refine ⟨?_, ?_, ?_, ?_⟩
      · rw [List.flatten_cons, ← List.append_assoc]
        exact Ia
      · intro x hx
        rw [List.flatten_cons] at hx
        rcases List.mem_append.mp hx with h | h
        · exact hmem x (List.mem_append.mpr (Or.inr h))
        · exact Ib x h
      · intro hnc x hxids
        rcases Ic hnc x hxids with h | h
        · rcases List.mem_append.mp h with h1 | h1
          · exact Or.inl h1
          · exact Or.inr (by
              rw [List.flatten_cons]
              exact List.mem_append.mpr (Or.inl h1))
        · exact Or.inr (by
            rw [List.flatten_cons]
            exact List.mem_append.mpr (Or.inr h))
      · intro j b hb a hedge
        cases j with
        | zero =>
          simp only [List.getD_cons_zero] at hb
          have hvb : degGet deg b = 0 :=
            hzero b (List.mem_append.mpr (Or.inr hb))
          have heq : decSum g emitted b = inDeg0 g b := by
            have h1 := hvals b
            have hle := decSum_le_inDeg0 g hk emitted hemitnd b
            omega
          obtain ⟨n, hn, hna, hnb⟩ := hedge
          have : n.id_ ∈ emitted :=
            in_neighbors_popped g hk emitted hemitnd b heq n hn hnb
          rw [List.take_zero, List.flatten_nil, List.append_nil]
          exact hna ▸ this
        | succ j' =>
          simp only [List.getD_cons_succ] at hb
          have := Id j' b hb a hedge
          rw [List.take_succ_cons, List.flatten_cons, ← List.append_assoc]
          exact this

/-- The index of the level (batch) in which an id appears. -/
def levelOf (levels : ExecutionLevels) (x : NodeId) : Nat :=
  levels.findIdx (fun lvl => lvl.contains x)

lemma levelOf_eq_of_mem (x : NodeId) :
    ∀ (levels : ExecutionLevels), levels.flatten.Nodup →
      ∀ j, x ∈ levels.getD j [] → levelOf levels x = j := by
  intro levels
  induction levels with
  | nil =>
    intro _ j hj
    simp at hj
  | cons lvl rest ih =>
    intro hnd j hj
    rw [List.flatten_cons, List.nodup_append] at hnd
    cases j with
    | zero =>
      simp only [List.getD_cons_zero] at hj
      unfold levelOf
      rw [List.findIdx_cons]
      have : lvl.contains x = true := List.contains_iff_exists_mem_beq.mpr
        ⟨x, hj, by simp⟩
      rw [this]
      rfl
    | succ j' =>
      simp only [List.getD_cons_succ] at hj
      have hxrest : x ∈ rest.flatten := by
        have hsub : x ∈ rest.getD j' [] := hj
        rcases Nat.lt_or_ge j' rest.length with hlt | hge
        · exact List.mem_flatten.mpr ⟨rest.getD j' [], by
            rw [List.getD_eq_getElem?_getD]
            exact List.getElem?_mem (by
              rw [List.getElem?_eq_getElem hlt]
              rfl), hsub⟩
        · rw [List.getD_eq_default _ _ hge] at hsub
          exact absurd hsub (List.not_mem_nil x)
      have hxlvl : x ∉ lvl := fun hx => hnd.2.2 hx hxrest
      unfold levelOf
      rw [List.findIdx_cons]
      have : lvl.contains x = false := by
        rw [← Bool.not_eq_true]
        intro hc
        obtain ⟨y, hy, hxy⟩ := List.contains_iff_exists_mem_beq.mp hc
        rw [beq_iff_eq] at hxy
        exact hxlvl (hxy ▸ hy)
      rw [this]
      simp only [Bool.false_eq_true, if_false, cond_false]
      have := ih hnd.2.1 j' hj
      unfold levelOf at this
      omega

lemma exists_level_of_mem_flatten (x : NodeId) :
    ∀ levels : ExecutionLevels, x ∈ levels.flatten →
      ∃ j, j < levels.length ∧ x ∈ levels.getD j [] := by
  intro levels
  induction levels with
  | nil =>
    intro h
    simp at h
  | cons lvl rest ih =>
    intro h
    rw [List.flatten_cons] at h
    rcases List.mem_append.mp h with h1 | h1
    · exact ⟨0, by simp, by simpa using h1⟩
    · obtain ⟨j, hj, hmem⟩ := ih h1
      exact ⟨j + 1, by simpa using hj, by simpa using hmem⟩

lemma mem_take_flatten (x : NodeId) :
    ∀ (levels : ExecutionLevels) (j : Nat),
      x ∈ (levels.take j).flatten →
      ∃ i, i < j ∧ x ∈ levels.getD i [] := by
  intro levels
  induction levels with
  | nil =>
    intro j h
    simp at h
  | cons lvl rest ih =>
    intro j h
    cases j with
    | zero => simp at h
    | succ j' =>
      rw [List.take_succ_cons, List.flatten_cons] at h
      rcases List.mem_append.mp h with h1 | h1
      · exact ⟨0, by omega, by simpa using h1⟩
      · obtain ⟨i, hi, hmem⟩ := ih j' h1
        exact ⟨i + 1, by omega, by simpa using hmem⟩

lemma transGen_rank_lt (g : Graph) (r : NodeId → Nat)
    (hmono : ∀ a b, gEdge g a b → r a < r b) :
    ∀ x y, Relation.TransGen (gEdge g) x y → r x < r y := by
  intro x y htg
  induction htg with
  | single h => exact hmono _ _ h
  | tail _ h ih => exact lt_trans ih (hmono _ _ h)

lemma no_cycle_of_rank (g : Graph) (r : NodeId → Nat)
    (hmono : ∀ a b, gEdge g a b → r a < r b) : ¬ hasCycle g := by
  rintro ⟨x, hx⟩
  exact lt_irrefl (r x) (transGen_rank_lt g r hmono x x hx)

lemma tsLevels_spec (g : Graph) (hk : (idsOf g).Nodup)
    (hvalid : ∀ n ∈ g.nodes_, ∀ o ∈ n.output_node_ids_, o ∈ idsOf g) :
    (tsLevels g).flatten.Nodup ∧
    (∀ x ∈ (tsLevels g).flatten, x ∈ idsOf g) ∧
    (¬ hasCycle g → ∀ x ∈ idsOf g, x ∈ (tsLevels g).flatten) ∧
    (∀ j b, b ∈ (tsLevels g).getD j [] → ∀ a, gEdge g a b →
      a ∈ ((tsLevels g).take j).flatten) := by
  have hspec := tsDeg1_spec g
  have hvals : ∀ x, degGet (tsDeg1 g) x =
      (inDeg0 g x : Int) - (decSum g ([] : List NodeId) x : Int) := by
    intro x
    rw [hspec.2.1 x]
    simp [decSum]
  have hmem : ∀ x ∈ ([] : List NodeId) ++ tsQueue0 g, x ∈ idsOf g := by
    intro x hx
    rw [List.nil_append] at hx
    have hkeys := (mem_tsQueue0_iff g x).mp hx
    rcases (hspec.2.2 x).mp hkeys.1 with h | ⟨n, hn, ho⟩
    · exact h
    · exact hvalid n hn x ho
  have hnd : (([] : List NodeId) ++ tsQueue0 g).Nodup := by
    rw [List.nil_append]
    exact tsQueue0_nodup g
  have hzero : ∀ x ∈ ([] : List NodeId) ++ tsQueue0 g,
      degGet (tsDeg1 g) x = 0 := by
    intro x hx
    rw [List.nil_append] at hx
    exact ((mem_tsQueue0_iff g x).mp hx).2
  have hpos : ∀ x ∈ idsOf g, x ∉ ([] : List NodeId) ++ tsQueue0 g →
      1 ≤ degGet (tsDeg1 g) x := by
    intro x hxids hxn
    rw [List.nil_append] at hxn
    have hkey : x ∈ (tsDeg1 g).map Prod.fst :=
      (hspec.2.2 x).mpr (Or.inl hxids)
    have hne : degGet (tsDeg1 g) x ≠ 0 := by
      intro h0
      exact hxn ((mem_tsQueue0_iff g x).mpr ⟨hkey, h0⟩)
    have hge : (0 : Int) ≤ degGet (tsDeg1 g) x := by
      rw [hspec.2.1 x]
      exact Int.natCast_nonneg _
    omega
  have hfuel : ((idsOf g).filter
      (fun x => !(decide (x ∈ ([] : List NodeId))))).length <
        (tsDeg1 g).length + 1 := by
    have hfe : (idsOf g).filter
        (fun x => !(decide (x ∈ ([] : List NodeId)))) = idsOf g := by
      apply List.filter_eq_self.mpr
      intro a _
      simp
    rw [hfe]
    have hsubset : ∀ x ∈ idsOf g, x ∈ (tsDeg1 g).map Prod.fst :=
      fun x hx => (hspec.2.2 x).mpr (Or.inl hx)
    have h1 : (idsOf g).toFinset.card = (idsOf g).length :=
      List.toFinset_card_of_nodup hk
    have h2 : (idsOf g).toFinset ⊆ ((tsDeg1 g).map Prod.fst).toFinset := by
      intro x hx
      rw [List.mem_toFinset] at hx ⊢
      exact hsubset x hx
    have h3 := Finset.card_le_card h2
    have h4 := List.toFinset_card_le ((tsDeg1 g).map Prod.fst)
    have h5 : ((tsDeg1 g).map Prod.fst).length = (tsDeg1 g).length := by
      simp
    omega
  obtain ⟨Ia, Ib, Ic, Id⟩ := kahnRounds_spec g hk hvalid
    ((tsDeg1 g).length + 1) (tsDeg1 g) (tsQueue0 g) [] hspec.1 hvals hmem hnd
    hzero hpos hfuel
  refine ⟨by simpa using Ia, Ib, ?_, ?_⟩
  · intro hnc x hx
    rcases Ic hnc x hx with h | h
    · exact absurd h (List.not_mem_nil x)
    · exact h
  · intro j b hb a hedge
    have := Id j b hb a hedge
    simpa using this

/-- C1: for every graph whose node-map keys are duplicate-free, whose
nodes' output-id lists refer only to nodes present in the node map, and
which contains no directed cycle, `Graph::topologicalSort` returns
levels in which every node of the graph appears exactly once (the
flattened levels are a permutation of the node ids, so the
batch-concatenated node count equals the node count), and for every
directed edge a→b the level index of a is strictly less than the level
index of b. -/
theorem topologicalSort_complete_and_ordered (g : Graph)
    (hk : (idsOf g).Nodup)
    (hvalid : ∀ n ∈ g.nodes_, ∀ o ∈ n.output_node_ids_, o ∈ idsOf g)
    (hacyc : ¬ hasCycle g) :
    g.topologicalSort.flatten.Perm (idsOf g) ∧
    (g.topologicalSort.map List.length).sum = g.nodes_.length ∧
    ∀ a b, gEdge g a b →
      levelOf g.topologicalSort a < levelOf g.topologicalSort b := by
  obtain ⟨Ia, Ib, Ic, Id⟩ := tsLevels_spec g hk hvalid
  have hmemiff : ∀ x, x ∈ (tsLevels g).flatten ↔ x ∈ idsOf g :=
    fun x => ⟨Ib x, Ic hacyc x⟩
  have hperm : (tsLevels g).flatten.Perm (idsOf g) :=
    (List.perm_ext_iff_of_nodup Ia hk).mpr hmemiff
  have hcond : ((tsLevels g).map List.length).sum = g.nodes_.length := by
    have h1 : (tsLevels g).flatten.length = (idsOf g).length :=
      hperm.length_eq
    have h2 : (idsOf g).length = g.nodes_.length := by simp [idsOf]
    rw [← List.length_flatten, h1, h2]
  have hts : g.topologicalSort = tsLevels g := by
    rw [topologicalSort_eq, if_pos hcond]
  rw [hts]
  refine ⟨hperm, hcond, ?_⟩
  intro a b hedge
  have hbids : b ∈ idsOf g := by
    obtain ⟨n, hn, _, hnb⟩ := hedge
    exact hvalid n hn b hnb
  have hbflat : b ∈ (tsLevels g).flatten := Ic hacyc b hbids
  obtain ⟨j, hj, hbj⟩ := exists_level_of_mem_flatten b (tsLevels g) hbflat
  have ha := Id j b hbj a hedge
  obtain ⟨i, hij, hai⟩ := mem_take_flatten a (tsLevels g) j ha
  have hla : levelOf (tsLevels g) a = i := levelOf_eq_of_mem a (tsLevels g) Ia i hai
  have hlb : levelOf (tsLevels g) b = j := levelOf_eq_of_mem b (tsLevels g) Ia j hbj
  omega

/-- Witness for C1: the two-node edgeless graph. -/
theorem topologicalSort_complete_and_ordered_witness :
    gAB.topologicalSort.flatten.Perm (idsOf gAB) ∧
    (gAB.topologicalSort.map List.length).sum = gAB.nodes_.length ∧
    ∀ a b, gEdge gAB a b →
      levelOf gAB.topologicalSort a < levelOf gAB.topologicalSort b := by
  have houts : ∀ n ∈ gAB.nodes_, n.output_node_ids_ = [] := by decide
  apply topologicalSort_complete_and_ordered gAB
  · decide
  · intro n hn o ho
    rw [houts n hn] at ho
    exact absurd ho (List.not_mem_nil o)
  · apply no_cycle_of_rank gAB (fun _ => 0)
    rintro a b ⟨n, hn, _, hnb⟩
    rw [houts n hn] at hnb
    exact absurd hnb (List.not_mem_nil b)

lemma gEdge_of_mem_outsOf (g : Graph) (a b : NodeId) (h : b ∈ outsOf g a) :
    gEdge g a b := by
  unfold outsOf Graph.getNode at h
  cases hf : g.nodes_.find? (fun n => n.id_ = a) with
  | none =>
    rw [hf] at h
    exact absurd h (List.not_mem_nil b)
  | some n =>
    rw [hf] at h
    have hmem := List.mem_of_find?_eq_some hf
    have hid := List.find?_some hf
    simp only [decide_eq_true_eq] at hid
    exact ⟨n, hmem, hid, h⟩

lemma mem_outsOf_of_gEdge (g : Graph) (hk : (idsOf g).Nodup)
    (a b : NodeId) (h : gEdge g a b) : b ∈ outsOf g a := by
  obtain ⟨n, hn, hna, hnb⟩ := h
  unfold outsOf Graph.getNode
  have hsome : (g.nodes_.find? (fun m => m.id_ = a)).isSome := by
    rw [List.find?_isSome]
    exact ⟨n, hn, by simp [hna]⟩
  cases hf : g.nodes_.find? (fun m => m.id_ = a) with
  | none => rw [hf] at hsome; exact absurd hsome (by simp)
  | some m =>
    have hmmem := List.mem_of_find?_eq_some hf
    have hmid := List.find?_some hf
    simp only [decide_eq_true_eq] at hmid
    have : n = m := List.inj_on_of_nodup_map hk hn hmmem (by rw [hna, hmid])
    rw [← this]
    exact hnb

lemma mem_idUniverse_of_id (g : Graph) (n : GraphNode) (hn : n ∈ g.nodes_) :
    n.id_ ∈ g.idUniverse := by
  unfold Graph.idUniverse
  rw [List.mem_dedup, List.mem_append]
  exact Or.inl (List.mem_map_of_mem GraphNode.id_ hn)

lemma mem_idUniverse_of_out (g : Graph) (n : GraphNode) (hn : n ∈ g.nodes_)
    (o : NodeId) (ho : o ∈ n.output_node_ids_) : o ∈ g.idUniverse := by
  unfold Graph.idUniverse
  rw [List.mem_dedup, List.mem_append]
  exact Or.inr (List.mem_flatMap.mpr ⟨n, hn, ho⟩)

lemma mem_idUniverse_of_outsOf (g : Graph) (a o : NodeId)
    (ho : o ∈ outsOf g a) : o ∈ g.idUniverse := by
  unfold outsOf Graph.getNode at ho
  cases hf : g.nodes_.find? (fun n => n.id_ = a) with
  | none => rw [hf] at ho; exact absurd ho (List.not_mem_nil o)
  | some n =>
    rw [hf] at ho
    exact mem_idUniverse_of_out g n (List.mem_of_find?_eq_some hf) o ho

/-- The DFS colour invariant: a black id (visited and off the recursion
stack) has only black successors and lies on no cycle. -/
def blackInv (g : Graph) (v s : List NodeId) : Prop :=
  ∀ x, x ∈ v → x ∉ s →
    (∀ y, gEdge g x y → y ∈ v ∧ y ∉ s) ∧
    ¬ Relation.TransGen (gEdge g) x x

lemma black_reach (g : Graph) (v s : List NodeId) (hb : blackInv g v s) :
    ∀ x y, x ∈ v → x ∉ s → Relation.TransGen (gEdge g) x y →
      y ∈ v ∧ y ∉ s := by
  intro x y hxv hxs htg
  induction htg with
  | single h => exact (hb x hxv hxs).1 _ h
  | tail _ h ih => exact (hb _ ih.1 ih.2).1 _ h

lemma chain_stack (g : Graph) (u : NodeId) :
    ∀ t : List NodeId, List.Chain' (fun a b => gEdge g b a) (u :: t) →
      ∀ o ∈ t, Relation.TransGen (gEdge g) o u := by
  intro t
  induction t generalizing u with
  | nil =>
    intro _ o ho
    exact absurd ho (List.not_mem_nil o)
  | cons x t' ih =>
    intro hc o ho
    rw [List.chain'_cons] at hc
    rcases List.mem_cons.mp ho with h | h
    · exact h ▸ Relation.TransGen.single hc.1
    · exact (ih x hc.2 o h).tail hc.1

/-- What a fuelled DFS call guarantees: it does not run out of fuel, a
`true` answer exposes a real cycle, and a `false` answer restores the
stack, extends `visited`, blackens the node and preserves the colour
invariant. -/
def dfsOk (g : Graph) (fuel : Nat)
    (dfs : NodeId → List NodeId → List NodeId →
      Option (Bool × List NodeId × List NodeId)) : Prop :=
  ∀ node v s,
    node ∉ v → (∀ x ∈ s, x ∈ v) → blackInv g v s →
    List.Chain' (fun a b => gEdge g b a) (node :: s) →
    node ∈ g.idUniverse →
    ((g.idUniverse).filter (fun x => !(decide (x ∈ v)))).length < fuel →
    dfs node v s ≠ none ∧
    ∀ b v' s', dfs node v s = some (b, v', s') →
      (b = true → hasCycle g) ∧
      (b = false → s' = s ∧ (∀ x ∈ v, x ∈ v') ∧ node ∈ v' ∧
        blackInv g v' s')

lemma outsGo_ok (g : Graph) (fuel : Nat)
    (dfs : NodeId → List NodeId → List NodeId →
      Option (Bool × List NodeId × List NodeId))
    (hdfs : dfsOk g fuel dfs) (u : NodeId) (t : List NodeId) :
    ∀ (outs : List NodeId) (v : List NodeId),
      (∀ o ∈ outs, gEdge g u o) →
      (∀ o ∈ outs, o ∈ g.idUniverse) →
      (∀ x ∈ u :: t, x ∈ v) →
      blackInv g v (u :: t) →
      List.Chain' (fun a b => gEdge g b a) (u :: t) →
      ((g.idUniverse).filter (fun x => !(decide (x ∈ v)))).length < fuel →
      Graph.hasCyclesDFSOutsGo dfs outs v (u :: t) ≠ none ∧
      ∀ b v' s',
        Graph.hasCyclesDFSOutsGo dfs outs v (u :: t) = some (b, v', s') →
        (b = true → hasCycle g) ∧
        (b = false → s' = u :: t ∧ (∀ x ∈ v, x ∈ v') ∧
          blackInv g v' (u :: t) ∧
          (∀ o ∈ outs, o ∈ v' ∧ o ∉ u :: t)) := by
  intro outs
  induction outs with
  | nil =>
    intro v _ _ _ hbi _ _
    refine ⟨by simp [Graph.hasCyclesDFSOutsGo], ?_⟩
    intro b v' s' hres
    simp only [Graph.hasCyclesDFSOutsGo, Option.some.injEq, Prod.mk.injEq] at hres
    obtain ⟨hb, hv, hs⟩ := hres
    refine ⟨fun ht => absurd (hb ▸ ht) (by simp), fun _ => ?_⟩
    exact ⟨hs.symm, fun x hx => hv ▸ hx, hv ▸ hbi,
      fun o ho => absurd ho (List.not_mem_nil o)⟩
  | cons o rest ih =>
    intro v houts hU hsv hbi hch hfuel
    have hstep : Graph.hasCyclesDFSOutsGo dfs (o :: rest) v (u :: t) =
        if o ∈ v then
          if o ∈ u :: t then some (true, v, u :: t)
          else Graph.hasCyclesDFSOutsGo dfs rest v (u :: t)
        else
          match dfs o v (u :: t) with
          | none => none
          | some (true, v1, s1) => some (true, v1, s1)
          | some (false, v1, s1) => Graph.hasCyclesDFSOutsGo dfs rest v1 s1 :=
      rfl
    have hedge : gEdge g u o := houts o (List.mem_cons_self o rest)
    by_cases hov : o ∈ v
    · by_cases host : o ∈ u :: t
      · rw [hstep, if_pos hov, if_pos host]
        have hcyc : hasCycle g := by
          rcases List.mem_cons.mp host with h | h
          · exact ⟨u, Relation.TransGen.single (h ▸ hedge)⟩
          · exact ⟨o, (chain_stack g u t hch o h).tail hedge⟩
        refine ⟨by simp, ?_⟩
        intro b v' s' hres
        simp only [Option.some.injEq, Prod.mk.injEq] at hres
        refine ⟨fun _ => hcyc, fun hb => absurd (hres.1 ▸ hb) (by simp)⟩
      · rw [hstep, if_pos hov, if_neg host]
        obtain ⟨hne, hspec⟩ := ih v (fun o' ho' => houts o' (List.mem_cons_of_mem o ho'))
          (fun o' ho' => hU o' (List.mem_cons_of_mem o ho')) hsv hbi hch hfuel
        refine ⟨hne, ?_⟩
        intro b v' s' hres
        obtain ⟨h1, h2⟩ := hspec b v' s' hres
        refine ⟨h1, fun hb => ?_⟩
        obtain ⟨ha, hvv, hbi', hrest⟩ := h2 hb
        refine ⟨ha, hvv, hbi', ?_⟩
        intro o' ho'
        rcases List.mem_cons.mp ho' with h | h
        · exact ⟨h ▸ hvv o hov, h ▸ host⟩
        · exact hrest o' h
    · have hchain2 : List.Chain' (fun a b => gEdge g b a) (o :: u :: t) :=
        List.chain'_cons.mpr ⟨hedge, hch⟩
      obtain ⟨hne1, hspec1⟩ := hdfs o v (u :: t) hov hsv hbi hchain2
        (hU o (List.mem_cons_self o rest)) hfuel
      cases hdres : dfs o v (u :: t) with
      | none => exact absurd hdres hne1
      | some r =>
        obtain ⟨b1, v1, s1⟩ := r
        obtain ⟨ht1, hf1⟩ := hspec1 b1 v1 s1 hdres
        cases b1 with
        | true =>
          have hres0 : Graph.hasCyclesDFSOutsGo dfs (o :: rest) v (u :: t) =
              some (true, v1, s1) := by
            rw [hstep, if_neg hov, hdres]
          refine ⟨by rw [hres0]; simp, ?_⟩
          intro b v' s' hres
          rw [hres0] at hres
          simp only [Option.some.injEq, Prod.mk.injEq] at hres
          exact ⟨fun _ => ht1 rfl, fun hb => absurd (hres.1 ▸ hb) (by simp)⟩
        | false =>
          obtain ⟨hs1, hvv1, hov1, hbi1⟩ := hf1 rfl
          subst hs1
          have hres0 : Graph.hasCyclesDFSOutsGo dfs (o :: rest) v (u :: t) =
              Graph.hasCyclesDFSOutsGo dfs rest v1 (u :: t) := by
            rw [hstep, if_neg hov, hdres]
          have hfuel1 : ((g.idUniverse).filter
              (fun x => !(decide (x ∈ v1)))).length < fuel := by
            have hm := length_filter_mono_pred
              (fun x => !(decide (x ∈ v))) (fun x => !(decide (x ∈ v1)))
              (by
                intro a ha
                simp only [Bool.not_eq_true', decide_eq_false_iff_not] at ha ⊢
                exact fun hmem => ha (hvv1 a hmem))
              g.idUniverse
            omega
          obtain ⟨hne2, hspec2⟩ := ih v1
            (fun o' ho' => houts o' (List.mem_cons_of_mem o ho'))
            (fun o' ho' => hU o' (List.mem_cons_of_mem o ho'))
            (fun x hx => hvv1 x (hsv x hx)) hbi1 hch hfuel1
          rw [hres0]
          refine ⟨hne2, ?_⟩
          intro b v' s' hres
          obtain ⟨h1, h2⟩ := hspec2 b v' s' hres
          refine ⟨h1, fun hb => ?_⟩
          obtain ⟨ha, hvv, hbi', hrest⟩ := h2 hb
          refine ⟨ha, fun x hx => hvv x (hvv1 x hx), hbi', ?_⟩
          intro o' ho'
          rcases List.mem_cons.mp ho' with h | h
          · refine ⟨h ▸ hvv o hov1, h ▸ ?_⟩
            intro hmem
            exact hov (hsv o hmem)
          · exact hrest o' h

lemma hasCyclesDFS_ok (g : Graph) (hk : (idsOf g).Nodup) :
    ∀ fuel, dfsOk g fuel (Graph.hasCyclesDFS g fuel) := by
  intro fuel
  induction fuel with
  | zero =>
    intro node v s _ _ _ _ _ hfuel
    omega
  | succ fuel ih =>
    intro node v s hnv hsv hbi hch hnU hfuel
    have hstep : Graph.hasCyclesDFS g (fuel + 1) node v s =
        match Graph.hasCyclesDFSOutsGo (Graph.hasCyclesDFS g fuel)
          (outsOf g node) (node :: v) (node :: s) with
        | none => none
        | some (true, v1, s1) => some (true, v1, s1)
        | some (false, v1, s1) => some (false, v1, s1.erase node) := rfl
    have hbi1 : blackInv g (node :: v) (node :: s) := by
      intro x hxv hxs
      have hxn : x ≠ node := fun h => hxs (h ▸ List.mem_cons_self node s)
      have hxv' : x ∈ v := by
        rcases List.mem_cons.mp hxv with h | h
        · exact absurd h hxn
        · exact h
      have hxs' : x ∉ s := fun h => hxs (List.mem_cons_of_mem node h)
      obtain ⟨hcl, hnc⟩ := hbi x hxv' hxs'
      refine ⟨?_, hnc⟩
      intro y hy
      obtain ⟨hyv, hys⟩ := hcl y hy
      refine ⟨List.mem_cons_of_mem node hyv, ?_⟩
      intro hmem
      rcases List.mem_cons.mp hmem with h | h
      · exact hnv (h ▸ hyv)
      · exact hys h
    have hfuel1 : ((g.idUniverse).filter
        (fun x => !(decide (x ∈ node :: v)))).length < fuel := by
      have hlt := length_filter_lt_of_witness
        (fun x => !(decide (x ∈ v))) (fun x => !(decide (x ∈ node :: v)))
        (by
          intro a ha
          simp only [Bool.not_eq_true', decide_eq_false_iff_not] at ha ⊢
          exact fun hmem => ha (List.mem_cons_of_mem node hmem))
        node g.idUniverse hnU
        (by simp [hnv])
        (by simp)
      omega
    obtain ⟨hne, hspec⟩ := outsGo_ok g fuel (Graph.hasCyclesDFS g fuel) ih
      node s (outsOf g node) (node :: v)
      (fun o ho => gEdge_of_mem_outsOf g node o ho)
      (fun o ho => mem_idUniverse_of_outsOf g node o ho)
      (by
        intro x hx
        rcases List.mem_cons.mp hx with h | h
        · exact h ▸ List.mem_cons_self node v
        · exact List.mem_cons_of_mem node (hsv x h))
      hbi1 hch hfuel1
    cases hores : Graph.hasCyclesDFSOutsGo (Graph.hasCyclesDFS g fuel)
        (outsOf g node) (node :: v) (node :: s) with
    | none => exact absurd hores hne
    | some r =>
      obtain ⟨b1, v1, s1⟩ := r
      obtain ⟨ht1, hf1⟩ := hspec b1 v1 s1 hores
      cases b1 with
      | true =>
        have hres0 : Graph.hasCyclesDFS g (fuel + 1) node v s =
            some (true, v1, s1) := by
          rw [hstep, hores]
        refine ⟨by rw [hres0]; simp, ?_⟩
        intro b v' s' hres
        rw [hres0] at hres
        simp only [Option.some.injEq, Prod.mk.injEq] at hres
        exact ⟨fun _ => ht1 rfl, fun hb => absurd (hres.1 ▸ hb) (by simp)⟩
      | false =>
        obtain ⟨hs1, hvv1, hbi2, houtb⟩ := hf1 rfl
        subst hs1
        have hres0 : Graph.hasCyclesDFS g (fuel + 1) node v s =
            some (false, v1, ((node :: s).erase node)) := by
          rw [hstep, hores]
        rw [List.erase_cons_head] at hres0
        refine ⟨by rw [hres0]; simp, ?_⟩
        intro b v' s' hres
        rw [hres0] at hres
        simp only [Option.some.injEq, Prod.mk.injEq] at hres
        obtain ⟨hb, hv', hs'⟩ := hres
        refine ⟨fun ht => absurd (hb ▸ ht) (by simp), fun _ => ?_⟩
        subst hv'
        subst hs'
        refine ⟨rfl, fun x hx => hvv1 x (List.mem_cons_of_mem node hx),
          hvv1 node (List.mem_cons_self node v), ?_⟩
        intro x hxv hxs
        by_cases hxn : x = node
        · subst hxn
          constructor
          · intro y hy
            have hyo : y ∈ outsOf g x := mem_outsOf_of_gEdge g hk x y hy
            obtain ⟨hyv, hys⟩ := houtb y hyo
            exact ⟨hyv, fun h => hys (List.mem_cons_of_mem x h)⟩
          · intro htg
            obtain ⟨c, hc1, hc2⟩ := Relation.TransGen.head'_iff.mp htg
            have hco : c ∈ outsOf g x := mem_outsOf_of_gEdge g hk x c hc1
            obtain ⟨hcv, hcs⟩ := houtb c hco
            rcases Relation.reflTransGen_iff_eq_or_transGen.mp hc2 with h | h
            · cases h
              exact hcs (List.mem_cons_self _ _)
            · have := black_reach g v1 (x :: s) hbi2 c x hcv hcs h
              exact this.2 (List.mem_cons_self x s)
        · have hxs1 : x ∉ node :: s := by
            intro h
            rcases List.mem_cons.mp h with h' | h'
            · exact hxn h'
            · exact hxs h'
          obtain ⟨hcl, hnc⟩ := hbi2 x hxv hxs1
          refine ⟨?_, hnc⟩
          intro y hy
          obtain ⟨hyv, hys⟩ := hcl y hy
          exact ⟨hyv, fun h => hys (List.mem_cons_of_mem node h)⟩

lemma roots_ok (g : Graph) (fuel : Nat)
    (hdfs : dfsOk g fuel (Graph.hasCyclesDFS g fuel)) :
    ∀ (ns : List GraphNode) (v : List NodeId),
      (∀ n ∈ ns, n ∈ g.nodes_) →
      blackInv g v [] →
      ((g.idUniverse).filter (fun x => !(decide (x ∈ v)))).length < fuel →
      Graph.hasCyclesRoots g fuel ns v [] ≠ none ∧
      ∀ b, Graph.hasCyclesRoots g fuel ns v [] = some b →
        (b = true → hasCycle g) ∧
        (b = false → ∃ v', (∀ x ∈ v, x ∈ v') ∧ blackInv g v' [] ∧
          ∀ n ∈ ns, n.id_ ∈ v') := by
  intro ns
  induction ns with
  | nil =>
    intro v _ hbi _
    refine ⟨by simp [Graph.hasCyclesRoots], ?_⟩
    intro b hres
    simp only [Graph.hasCyclesRoots, Option.some.injEq] at hres
    refine ⟨fun ht => absurd (hres ▸ ht) (by simp), fun _ => ?_⟩
    exact ⟨v, fun x hx => hx, hbi, fun n hn => absurd hn (List.not_mem_nil n)⟩
  | cons n rest ih =>
    intro v hns hbi hfuel
    have hstep : Graph.hasCyclesRoots g fuel (n :: rest) v [] =
        if n.id_ ∈ v then Graph.hasCyclesRoots g fuel rest v []
        else
          match Graph.hasCyclesDFS g fuel n.id_ v [] with
          | none => none
          | some (true, _, _) => some true
          | some (false, v1, s1) => Graph.hasCyclesRoots g fuel rest v1 s1 :=
      rfl
    by_cases hnv : n.id_ ∈ v
    · rw [hstep, if_pos hnv]
      obtain ⟨hne, hspec⟩ := ih v (fun m hm => hns m (List.mem_cons_of_mem n hm))
        hbi hfuel
      refine ⟨hne, ?_⟩
      intro b hres
      obtain ⟨h1, h2⟩ := hspec b hres
      refine ⟨h1, fun hb => ?_⟩
      obtain ⟨v', hvv, hbi', hrest⟩ := h2 hb
      refine ⟨v', hvv, hbi', ?_⟩
      intro m hm
      rcases List.mem_cons.mp hm with h | h
      · exact h ▸ hvv n.id_ hnv
      · exact hrest m h
    · obtain ⟨hne1, hspec1⟩ := hdfs n.id_ v [] hnv
        (fun x hx => absurd hx (List.not_mem_nil x)) hbi
        (List.chain'_singleton n.id_)
        (mem_idUniverse_of_id g n (hns n (List.mem_cons_self n rest))) hfuel
      cases hdres : Graph.hasCyclesDFS g fuel n.id_ v [] with
      | none => exact absurd hdres hne1
      | some r =>
        obtain ⟨b1, v1, s1⟩ := r
        obtain ⟨ht1, hf1⟩ := hspec1 b1 v1 s1 hdres
        cases b1 with
        | true =>
          have hres0 : Graph.hasCyclesRoots g fuel (n :: rest) v [] =
              some true := by
            rw [hstep, if_neg hnv, hdres]
          refine ⟨by rw [hres0]; simp, ?_⟩
          intro b hres
          rw [hres0] at hres
          simp only [Option.some.injEq] at hres
          exact ⟨fun _ => ht1 rfl, fun hb => absurd (hres ▸ hb) (by simp)⟩
        | false =>
          obtain ⟨hs1, hvv1, hnid1, hbi1⟩ := hf1 rfl
          subst hs1
          have hres0 : Graph.hasCyclesRoots g fuel (n :: rest) v [] =
              Graph.hasCyclesRoots g fuel rest v1 [] := by
            rw [hstep, if_neg hnv, hdres]
          have hfuel1 : ((g.idUniverse).filter
              (fun x => !(decide (x ∈ v1)))).length < fuel := by
            have hm := length_filter_mono_pred
              (fun x => !(decide (x ∈ v))) (fun x => !(decide (x ∈ v1)))
              (by
                intro a ha
                simp only [Bool.not_eq_true', decide_eq_false_iff_not] at ha ⊢
                exact fun hmem => ha (hvv1 a hmem))
              g.idUniverse
            omega
          obtain ⟨hne2, hspec2⟩ := ih v1
            (fun m hm => hns m (List.mem_cons_of_mem n hm)) hbi1 hfuel1
          rw [hres0]
          refine ⟨hne2, ?_⟩
          intro b hres
          obtain ⟨h1, h2⟩ := hspec2 b hres
          refine ⟨h1, fun hb => ?_⟩
          obtain ⟨v', hvv, hbi', hrest⟩ := h2 hb
          refine ⟨v', fun x hx => hvv x (hvv1 x hx), hbi', ?_⟩
          intro m hm
          rcases List.mem_cons.mp hm with h | h
          · exact h ▸ hvv n.id_ hnid1
          · exact hrest m h

lemma hasCycles_iff (g : Graph) (hk : (idsOf g).Nodup) :
    g.hasCycles = true ↔ hasCycle g := by
  have hdfs := hasCyclesDFS_ok g hk (g.idUniverse.length + 1)
  have hfuel : ((g.idUniverse).filter
      (fun x => !(decide (x ∈ ([] : List NodeId))))).length <
        g.idUniverse.length + 1 := by
    have hfe : (g.idUniverse).filter
        (fun x => !(decide (x ∈ ([] : List NodeId)))) = g.idUniverse := by
      apply List.filter_eq_self.mpr
      intro a _
      simp
    rw [hfe]
    omega
  obtain ⟨hne, hspec⟩ := roots_ok g (g.idUniverse.length + 1) hdfs g.nodes_ []
    (fun _ hn => hn) (fun x hx _ => absurd hx (List.not_mem_nil x)) hfuel
  cases hr : Graph.hasCyclesRoots g (g.idUniverse.length + 1) g.nodes_ [] [] with
  | none => exact absurd hr hne
  | some b =>
    have hval : g.hasCycles = b := by
      unfold Graph.hasCycles
      rw [hr]
      rfl
    obtain ⟨h1, h2⟩ := hspec b hr
    constructor
    · intro h
      exact h1 (by rw [← hval]; exact h)
    · intro hcyc
      rw [hval]
      cases b with
      | true => rfl
      | false =>
        exfalso
        obtain ⟨v', _, hbi, hids⟩ := h2 rfl
        obtain ⟨x, htg⟩ := hcyc
        obtain ⟨c, hc1, _⟩ := Relation.TransGen.head'_iff.mp htg
        obtain ⟨n, hn, hnx, _⟩ := hc1
        have hxv : x ∈ v' := hnx ▸ hids n hn
        exact (hbi x hxv (List.not_mem_nil x)).2 htg

lemma cycle_blocks_sort (g : Graph) (hk : (idsOf g).Nodup)
    (hvalid : ∀ n ∈ g.nodes_, ∀ o ∈ n.output_node_ids_, o ∈ idsOf g)
    (hcyc : hasCycle g) : g.topologicalSort = [] := by
  by_contra hne
  rw [topologicalSort_eq] at hne
  by_cases hcond : ((tsLevels g).map List.length).sum = g.nodes_.length
  case neg =>
    rw [if_neg hcond] at hne
    exact hne rfl
  rw [if_pos hcond] at hne
  obtain ⟨Ia, Ib, _, Id⟩ := tsLevels_spec g hk hvalid
  have hlen : (tsLevels g).flatten.length = (idsOf g).length := by
    rw [List.length_flatten, hcond]
    simp [idsOf]
  have hidsub : ∀ x ∈ idsOf g, x ∈ (tsLevels g).flatten := by
    have h1 : (tsLevels g).flatten.toFinset ⊆ (idsOf g).toFinset := by
      intro x hx
      rw [List.mem_toFinset] at hx ⊢
      exact Ib x hx
    have h2 : (tsLevels g).flatten.toFinset.card =
        (tsLevels g).flatten.length := List.toFinset_card_of_nodup Ia
    have h3 : (idsOf g).toFinset.card ≤ (idsOf g).length :=
      List.toFinset_card_le _
    have heq : (tsLevels g).flatten.toFinset = (idsOf g).toFinset :=
      Finset.eq_of_subset_of_card_le h1 (by omega)
    intro x hx
    have hx' : x ∈ (idsOf g).toFinset := List.mem_toFinset.mpr hx
    rw [← heq, List.mem_toFinset] at hx'
    exact hx'
  have hmono : ∀ a b, gEdge g a b →
      levelOf (tsLevels g) a < levelOf (tsLevels g) b := by
    intro a b hedge
    have hbids : b ∈ idsOf g := by
      obtain ⟨n, hn, _, hnb⟩ := hedge
      exact hvalid n hn b hnb
    obtain ⟨j, hj, hbj⟩ :=
      exists_level_of_mem_flatten b (tsLevels g) (hidsub b hbids)
    have ha := Id j b hbj a hedge
    obtain ⟨i, hij, hai⟩ := mem_take_flatten a (tsLevels g) j ha
    have hla := levelOf_eq_of_mem a (tsLevels g) Ia i hai
    have hlb := levelOf_eq_of_mem b (tsLevels g) Ia j hbj
    omega
  exact no_cycle_of_rank g (levelOf (tsLevels g)) hmono hcyc

/-- Node constructor used by the concrete cycle examples. -/
def mkN (i : String) (outs : List String) (ins : List String) : GraphNode :=
  { id_ := i, type_ := "op", name_ := i,
    output_node_ids_ := outs, input_node_ids_ := ins }

/-- Self-loop on "a" plus an edge from "b" to the dangling id "z". -/
def gWeird : Graph := { nodes_ := [mkN "a" ["a"] ["a"], mkN "b" ["z"] []] }

/-- A two-node cycle. -/
def gCyc : Graph := { nodes_ := [mkN "a" ["b"] ["b"], mkN "b" ["a"] ["a"]] }

/-- C2 counterexample: `gWeird` contains a directed cycle (a self-loop on
"a") and `hasCycles` detects it, yet `topologicalSort` returns the
non-empty level set `[["b"], ["z"]]`: the dangling output id "z" is
default-inserted into the in-degree map and emitted, so the emitted count
still matches the node count and the cycle signal is missed. -/
theorem hasCycles_sort_counterexample :
    Graph.hasCycles gWeird = true ∧ hasCycle gWeird ∧
    gWeird.topologicalSort ≠ [] := by
  refine ⟨by decide, ⟨"a", Relation.TransGen.single ?_⟩, by decide⟩
  exact ⟨mkN "a" ["a"] ["a"], List.mem_cons_self _ _, rfl, by decide⟩

/-- C2 (amended): for every graph with duplicate-free node-map keys,
`hasCycles` returns true exactly when some node is reachable from itself
via directed edges; and for every such graph whose output references all
resolve to present nodes, containing a cycle forces `topologicalSort` to
return the empty level set.  The reference-validity proviso is necessary:
with a dangling output id the emitted count can still match the node
count, and a cyclic graph then gets a non-empty level set. -/
theorem hasCycles_correct_and_cycle_blocks_sort (g : Graph)
    (hk : (idsOf g).Nodup) :
    (g.hasCycles = true ↔ hasCycle g) ∧
    ((∀ n ∈ g.nodes_, ∀ o ∈ n.output_node_ids_, o ∈ idsOf g) →
      hasCycle g → g.topologicalSort = []) :=
  ⟨hasCycles_iff g hk, fun hvalid hcyc => cycle_blocks_sort g hk hvalid hcyc⟩

/-- Witness for the amended C2 at the two-node cycle. -/
theorem hasCycles_correct_and_cycle_blocks_sort_witness :
    (Graph.hasCycles gCyc = true ↔ hasCycle gCyc) ∧
    ((∀ n ∈ gCyc.nodes_, ∀ o ∈ n.output_node_ids_, o ∈ idsOf gCyc) →
      hasCycle gCyc → gCyc.topologicalSort = []) :=
  hasCycles_correct_and_cycle_blocks_sort gCyc (by decide)

/-- A configuration with one input node "a" and a connection to the absent
id "zzz". -/
def cfgDangling : GraphConfig :=
  { nodes := [ { id := "a", type := "input", image_path := "p" } ],
    connections :=
      [ { from_node := "a", from_port := 0, to_node := "zzz", to_port := 0 } ] }

/-- The executor built from `cfgDangling`. -/
def exDang : GraphExecutor :=
  (GraphExecutor.buildGraph env0
    ({} : GraphExecutor).clearResults cfgDangling).toOption.getD {}

/-- C5 counterexample: `loadGraph` accepts `cfgDangling` even though its
single connection names the absent endpoint "zzz" — the executor's
validation never checks connection endpoints against the node set. -/
theorem loadGraph_dangling_counterexample :
    (GraphExecutor.loadGraph env0 {} cfgDangling).isOk = true ∧
    ((GraphExecutor.loadGraph env0 {} cfgDangling).toOption.getD
        {}).graph_.connections_.any
      (fun c => !((GraphExecutor.loadGraph env0 {} cfgDangling).toOption.getD
        {}).graph_.hasNode c.to_node) = true := by
  decide

/-- C5 (amended): after a successful build, `loadGraph` validates only two
structural conditions: a cycle is fatal with the fixed message, and a
successful load guarantees the (unchanged) built graph reports no cycles
— hence, under the `std::map` key-uniqueness invariant, really has none —
and has no input-typed node with incoming connections.  Dangling
connection endpoints and the designated input/output ids are never
checked (see the counterexample). -/
theorem loadGraph_validation_amended (env : Env) (ex : GraphExecutor)
    (config : GraphConfig) (ex1 : GraphExecutor)
    (hbuild : GraphExecutor.buildGraph env ex.clearResults config =
      Except.ok ex1) :
    (ex1.graph_.hasCycles = true →
      GraphExecutor.loadGraph env ex config =
        Except.error "Graph contains cycles - cannot execute") ∧
    (∀ ex', GraphExecutor.loadGraph env ex config = Except.ok ex' →
      ex' = { ex1 with stats_ :=
        { total_nodes := (ex1.graph_.getNodeCount : Int),
          executed_nodes := 0 } } ∧
      ex1.graph_.hasCycles = false ∧
      (∀ n ∈ ex1.graph_.nodes_, n.type_ = "input" →
        (ex1.graph_.getIncomingConnections n.id_).isEmpty = true) ∧
      ((idsOf ex1.graph_).Nodup → ¬ hasCycle ex1.graph_)) := by
  have hload : GraphExecutor.loadGraph env ex config =
      match GraphExecutor.validateGraph ex1 with
      | .error e => .error e
      | .ok _ => .ok { ex1 with stats_ :=
          { total_nodes := (ex1.graph_.getNodeCount : Int),
            executed_nodes := 0 } } := by
    unfold GraphExecutor.loadGraph
    dsimp only
    rw [hbuild]
  constructor
  · intro hcycB
    rw [hload]
    unfold GraphExecutor.validateGraph
    rw [if_pos hcycB]
  · intro ex' hok
    rw [hload] at hok
    cases hvres : GraphExecutor.validateGraph ex1 with
    | error e =>
      rw [hvres] at hok
      exact absurd hok (by simp)
    | ok u =>
      rw [hvres] at hok
      simp only [Except.ok.injEq] at hok
      unfold GraphExecutor.validateGraph at hvres
      by_cases hcycB : ex1.graph_.hasCycles = true
      · rw [if_pos hcycB] at hvres
        exact absurd hvres (by simp)
      · rw [if_neg hcycB] at hvres
        cases hf : ex1.graph_.nodes_.find? (fun n =>
            n.type_ = "input" &&
            !(ex1.graph_.getIncomingConnections n.id_).isEmpty) with
        | some n =>
          rw [hf] at hvres
          exact absurd hvres (by simp)
        | none =>
          refine ⟨hok.symm, Bool.not_eq_true _ ▸ hcycB, ?_, ?_⟩
          · intro n hn htype
            have hpred := List.find?_eq_none.mp hf n hn
            simp only [Bool.and_eq_true, decide_eq_true_eq, Bool.not_eq_true',
              not_and] at hpred
            have := hpred htype
            simp only [Bool.not_eq_false] at this
            exact this
          · intro hnd
            rw [← hasCycles_iff ex1.graph_ hnd]
            simp [Bool.not_eq_true _ ▸ hcycB]

/-- Witness for the amended C5 at the dangling configuration. -/
theorem loadGraph_validation_amended_witness :
    (exDang.graph_.hasCycles = true →
      GraphExecutor.loadGraph env0 {} cfgDangling =
        Except.error "Graph contains cycles - cannot execute") ∧
    (∀ ex', GraphExecutor.loadGraph env0 {} cfgDangling = Except.ok ex' →
      ex' = { exDang with stats_ :=
        { total_nodes := (exDang.graph_.getNodeCount : Int),
          executed_nodes := 0 } } ∧
      exDang.graph_.hasCycles = false ∧
      (∀ n ∈ exDang.graph_.nodes_, n.type_ = "input" →
        (exDang.graph_.getIncomingConnections n.id_).isEmpty = true) ∧
      ((idsOf exDang.graph_).Nodup → ¬ hasCycle exDang.graph_)) :=
  loadGraph_validation_amended env0 {} cfgDangling exDang (by rfl)

lemma amLookup_amSet_self (k : NodeId) (v : Mat) :
    ∀ m : List (NodeId × Mat), amLookup (amSet k v m) k = some v := by
  intro m
  induction m with
  | nil => simp [amSet, amLookup]
  | cons e es ih =>
    by_cases h1 : strLt k e.1 = true
    · simp [amSet, h1, amLookup]
    · by_cases h2 : k = e.1
      · unfold amSet amLookup
        rw [if_neg h1, if_pos h2, List.find?_cons_of_pos _ (by simp)]
      · have hne : ¬(e.1 = k) := fun h => h2 h.symm
        unfold amSet
        rw [if_neg h1, if_neg h2]
        unfold amLookup
        rw [List.find?_cons_of_neg _ (by simp [hne])]
        exact ih

lemma amLookup_amSet_ne (k k' : NodeId) (v : Mat) (hne : k' ≠ k) :
    ∀ m : List (NodeId × Mat), amLookup (amSet k v m) k' = amLookup m k' := by
  intro m
  have hkk : ¬(k = k') := fun h => hne h.symm
  induction m with
  | nil => simp [amSet, amLookup, hkk]
  | cons e es ih =>
    by_cases h1 : strLt k e.1 = true
    · unfold amSet amLookup
      rw [if_pos h1, List.find?_cons_of_neg _ (by simp [hkk])]
    · by_cases h2 : k = e.1
      · unfold amSet amLookup
        rw [if_neg (by simp [h1]), if_pos h2,
          List.find?_cons_of_neg _ (by simp [hkk]),
          List.find?_cons_of_neg _ (by simp [h2 ▸ hkk])]
      · unfold amSet amLookup
        rw [if_neg (by simp [h1]), if_neg h2]
        by_cases h3 : e.1 = k'
        · rw [List.find?_cons_of_pos _ (by simp [h3]),
            List.find?_cons_of_pos _ (by simp [h3])]
        · rw [List.find?_cons_of_neg _ (by simp [h3]),
            List.find?_cons_of_neg _ (by simp [h3])]
          exact ih

lemma amLookup_foldl_not_mem (k : NodeId) :
    ∀ (ups : List (NodeId × Mat)) (c : List (NodeId × Mat)),
      k ∉ ups.map Prod.fst →
      amLookup (ups.foldl (fun c u => amSet u.1 u.2 c) c) k = amLookup c k := by
  intro ups
  induction ups with
  | nil => intro c _; rfl
  | cons u rest ih =>
    intro c hk
    rw [List.map_cons, List.mem_cons] at hk
    push_neg at hk
    rw [List.foldl_cons, ih _ hk.2, amLookup_amSet_ne u.1 k u.2 hk.1]

lemma amLookup_foldl_mem (k : NodeId) (m : Mat) :
    ∀ (ups : List (NodeId × Mat)) (c : List (NodeId × Mat)),
      (ups.map Prod.fst).Nodup → (k, m) ∈ ups →
      amLookup (ups.foldl (fun c u => amSet u.1 u.2 c) c) k = some m := by
  intro ups
  induction ups with
  | nil =>
    intro c _ hm
    exact absurd hm (List.not_mem_nil _)
  | cons u rest ih =>
    intro c hnd hm
    rw [List.map_cons, List.nodup_cons] at hnd
    rcases List.mem_cons.mp hm with h | h
    · subst h
      rw [List.foldl_cons, amLookup_foldl_not_mem k rest _ hnd.1]
      exact amLookup_amSet_self k m c
    · rw [List.foldl_cons]
      exact ih _ hnd.2 h

/-- The display name the progress callback receives for an id. -/
def displayName (g : Graph) (node_id : NodeId) : String :=
  match g.getNode node_id with
  | some n => n.getName
  | none => "Unknown"

lemma execLoop_trace (env : Env) (total : Nat) :
    ∀ (pairs : List (Nat × NodeId)) (ex : GraphExecutor) (evs : List Ev),
      (GraphExecutor.execLoop env true total pairs ex evs).2.2 =
        Except.ok () →
      ∃ ms : List Mat, ms.length = pairs.length ∧
        (GraphExecutor.execLoop env true total pairs ex evs).1 =
          evs ++ (pairs.zip ms).flatMap (fun pm =>
            [Ev.prog (displayName ex.graph_ pm.1.2) (pm.1.1 + 1) total,
             Ev.run pm.1.2 pm.2]) ∧
        (GraphExecutor.execLoop env true total pairs ex evs).2.1.graph_ =
          ex.graph_ ∧
        (GraphExecutor.execLoop env true total pairs ex evs).2.1.node_results_ =
          (pairs.zip ms).foldl (fun c pm => amSet pm.1.2 pm.2 c)
            ex.node_results_ := by
  intro pairs
  induction pairs with
  | nil =>
    intro ex evs _
    exact ⟨[], rfl, by simp [GraphExecutor.execLoop], rfl, rfl⟩
  | cons p rest ih =>
    intro ex evs hret
    obtain ⟨i, node_id⟩ := p
    have hstep : GraphExecutor.execLoop env true total ((i, node_id) :: rest)
        ex evs =
        match GraphExecutor.executeNode env ex node_id with
        | .error e =>
          (evs ++ [Ev.prog (displayName ex.graph_ node_id) (i + 1) total],
            ex, .error e)
        | .ok result =>
          GraphExecutor.execLoop env true total rest
            { ex with
              node_results_ := amSet node_id result ex.node_results_,
              stats_ := { ex.stats_ with
                executed_nodes := ex.stats_.executed_nodes + 1 } }
            ((evs ++ [Ev.prog (displayName ex.graph_ node_id) (i + 1) total])
              ++ [Ev.run node_id result]) := rfl
    cases hexec : GraphExecutor.executeNode env ex node_id with
    | error e =>
      rw [hstep, hexec] at hret
      exact absurd hret (by simp)
    | ok result =>
      rw [hstep, hexec] at hret ⊢
      obtain ⟨ms', hlen, htrace, hgraph, hcache⟩ := ih _ _ hret
      refine ⟨result :: ms', by simp [hlen], ?_, hgraph, ?_⟩
      · rw [htrace]
        simp [List.append_assoc]
      · rw [hcache]
        rfl

lemma zip_enum_keys (order : List NodeId) (ms : List Mat)
    (hlen : ms.length = order.length) :
    ((order.enum.zip ms).map (fun pm => (pm.1.2, pm.2))).map Prod.fst =
      order := by
  rw [List.map_map]
  have h1 : (Prod.fst ∘ fun pm : (Nat × NodeId) × Mat => (pm.1.2, pm.2)) =
      (fun pm : (Nat × NodeId) × Mat => pm.1.2) := rfl
  rw [h1]
  have h2 : (fun pm : (Nat × NodeId) × Mat => pm.1.2) =
      (Prod.snd ∘ Prod.fst) := rfl
  rw [h2, ← List.map_map, List.map_fst_zip _ _ (by simp [hlen]),
    List.enum_map_snd]

lemma zip_enum_entry (order : List NodeId) (ms : List Mat)
    (hlen : ms.length = order.length) (i : Nat) (hi : i < order.length) :
    (order.getD i "", ms.getD i Mat.empty) ∈
      (order.enum.zip ms).map (fun pm => (pm.1.2, pm.2)) := by
  have hzl : (order.enum.zip ms).length = order.length := by
    simp [List.length_zip, hlen]
  have hiz : i < (order.enum.zip ms).length := by omega
  have hie : i < order.enum.length := by simp [hi]
  have him : i < ms.length := by omega
  have hil : i < ((order.enum.zip ms).map (fun pm => (pm.1.2, pm.2))).length := by
    simp only [List.length_map]
    omega
  have hentry : ((order.enum.zip ms).map (fun pm => (pm.1.2, pm.2))).get
      ⟨i, hil⟩ = (order.getD i "", ms.getD i Mat.empty) := by
    rw [List.get_eq_getElem, List.getElem_map, List.getElem_zip,
      List.getElem_enum]
    rw [List.getD_eq_getElem order "" hi, List.getD_eq_getElem ms Mat.empty him]
  rw [← hentry]
  exact List.get_mem _ _ hil

set_option maxHeartbeats 1600000 in
/-- C8: with a non-null callback and a successful run on a duplicate-free
topological order, the event trace of `executeWithProgress` consists of,
for each node of the order in order, exactly one progress-callback
invocation carrying the node's display name, its 1-based position, and
the total count, immediately followed by that node's execution; and
afterwards every executed node's result is cached under its id. -/
theorem executeWithProgress_progress_and_cache (env : Env)
    (ex : GraphExecutor)
    (hnd : ex.graph_.getTopologicalOrder.Nodup)
    (hok : (GraphExecutor.executeWithProgress env true ex).ret.isOk = true) :
    ∃ ms : List Mat,
      ms.length = ex.graph_.getTopologicalOrder.length ∧
      (GraphExecutor.executeWithProgress env true ex).events =
        (ex.graph_.getTopologicalOrder.enum.zip ms).flatMap (fun pm =>
          [Ev.prog (displayName ex.graph_ pm.1.2) (pm.1.1 + 1)
             ex.graph_.getTopologicalOrder.length,
           Ev.run pm.1.2 pm.2]) ∧
      ∀ i, i < ex.graph_.getTopologicalOrder.length →
        amLookup
          (GraphExecutor.executeWithProgress env true ex).exec.node_results_
          (ex.graph_.getTopologicalOrder.getD i "") =
          some (ms.getD i Mat.empty) := by
  have hstep : GraphExecutor.executeWithProgress env true ex =
      if (ex.clearResults.graph_.getTopologicalOrder).isEmpty then
        ⟨[], ex.clearResults,
          .error "Graph has no valid execution order (possibly cyclic)"⟩
      else
        match (GraphExecutor.execLoop env true
            (ex.clearResults.graph_.getTopologicalOrder).length
            (ex.clearResults.graph_.getTopologicalOrder).enum
            ex.clearResults []).2.2 with
        | .error e =>
          ⟨(GraphExecutor.execLoop env true
              (ex.clearResults.graph_.getTopologicalOrder).length
              (ex.clearResults.graph_.getTopologicalOrder).enum
              ex.clearResults []).1,
            (GraphExecutor.execLoop env true
              (ex.clearResults.graph_.getTopologicalOrder).length
              (ex.clearResults.graph_.getTopologicalOrder).enum
              ex.clearResults []).2.1, .error e⟩
        | .ok _ =>
          ⟨(GraphExecutor.execLoop env true
              (ex.clearResults.graph_.getTopologicalOrder).length
              (ex.clearResults.graph_.getTopologicalOrder).enum
              ex.clearResults []).1,
            (GraphExecutor.execLoop env true
              (ex.clearResults.graph_.getTopologicalOrder).length
              (ex.clearResults.graph_.getTopologicalOrder).enum
              ex.clearResults []).2.1,
            .ok (GraphExecutor.execLoop env true
              (ex.clearResults.graph_.getTopologicalOrder).length
              (ex.clearResults.graph_.getTopologicalOrder).enum
              ex.clearResults []).2.1.getResult⟩ := rfl
  by_cases hemp : (ex.clearResults.graph_.getTopologicalOrder).isEmpty = true
  · rw [hstep, if_pos hemp] at hok
    exact absurd hok (by simp [Except.isOk, Except.toBool])
  · rw [hstep, if_neg hemp] at hok ⊢
    cases hr : (GraphExecutor.execLoop env true
        (ex.clearResults.graph_.getTopologicalOrder).length
        (ex.clearResults.graph_.getTopologicalOrder).enum
        ex.clearResults []).2.2 with
    | error e =>
      rw [hr] at hok
      exact absurd hok (by simp [Except.isOk, Except.toBool])
    | ok u =>
      cases u
      dsimp only
      obtain ⟨ms, hlen, htrace, _, hcache⟩ :=
        execLoop_trace env
          (ex.clearResults.graph_.getTopologicalOrder).length
          (ex.clearResults.graph_.getTopologicalOrder).enum
          ex.clearResults [] hr
      refine ⟨ms, by simpa using hlen, by simpa using htrace, ?_⟩
      intro i hi
      have hlen' : ms.length = ex.graph_.getTopologicalOrder.length := by
        simpa using hlen
      have hconv : (ex.graph_.getTopologicalOrder.enum.zip ms).foldl
          (fun c pm => amSet pm.1.2 pm.2 c)
          ex.clearResults.node_results_ =
          ((ex.graph_.getTopologicalOrder.enum.zip ms).map
            (fun pm => (pm.1.2, pm.2))).foldl
            (fun c u => amSet u.1 u.2 c)
            ex.clearResults.node_results_ := by
        rw [List.foldl_map]
      have hkeys := zip_enum_keys ex.graph_.getTopologicalOrder ms hlen'
      have hmem := zip_enum_entry ex.graph_.getTopologicalOrder ms hlen' i hi
      rw [hcache]
      rw [show ex.clearResults.graph_ = ex.graph_ from rfl]
      rw [hconv]
      exact amLookup_foldl_mem (ex.graph_.getTopologicalOrder.getD i "")
        (ms.getD i Mat.empty)
        ((ex.graph_.getTopologicalOrder.enum.zip ms).map
          (fun pm => (pm.1.2, pm.2)))
        ex.clearResults.node_results_
        (by rw [hkeys]; exact hnd) hmem

/-- Witness for C8 at the concrete two-node pipeline. -/
theorem executeWithProgress_progress_and_cache_witness :
    ∃ ms : List Mat,
      ms.length = exBA.graph_.getTopologicalOrder.length ∧
      (GraphExecutor.executeWithProgress env0 true exBA).events =
        (exBA.graph_.getTopologicalOrder.enum.zip ms).flatMap (fun pm =>
          [Ev.prog (displayName exBA.graph_ pm.1.2) (pm.1.1 + 1)
             exBA.graph_.getTopologicalOrder.length,
           Ev.run pm.1.2 pm.2]) ∧
      ∀ i, i < exBA.graph_.getTopologicalOrder.length →
        amLookup
          (GraphExecutor.executeWithProgress env0 true exBA).exec.node_results_
          (exBA.graph_.getTopologicalOrder.getD i "") =
          some (ms.getD i Mat.empty) :=
  executeWithProgress_progress_and_cache env0 exBA (by decide) (by decide)
